import Mathlib

/-!
# gulp-boilerplate: the build orchestration of `gulpfile.js`

A shallow embedding of `src/gulpfile.js`.

* The configuration tables (`settings`, `paths`, `banner`) are transcribed as
  Lean records.
* Every gulp task (`cleanDist`, `buildScripts`, ...) becomes a function from an
  environment to the list of observable effects one invocation performs
  (calls of `del.sync`, `src`, `dest`, `browserSync.init`, `browserSync.reload`,
  `watch`, and of the completion callback `done`).
* Stream pipelines (`jsTasks`, the chain inside `buildStyles`, ...) become
  lists of `Step`s with an interpreter over lists of files.
* The two inner `src(...)` chains that `buildScripts` starts for a directory
  are not returned to gulp, so gulp does not wait for them: starting one is
  the effect `fork`, and what the chain does shows up as `late` events at any
  later point of the trace. A `Trace` may end before a chain does; in a
  `CompleteTrace` every chain runs to its end.
* The globs of those chains are built by pasting `file.path` as it is. For a
  path without glob syntax (`plainPath`) they list the directory's own files;
  for any other path their result is a parameter (`Project.magicGlob`).
* The exported composites (`exports.default`, `exports.watch`, ...) become
  `Comp` trees, and `Runs` is the set of event traces gulp's `series` and
  `parallel` allow for such a tree.

The third-party converters (terser, sass, cssnano, imagemin, ...) are
parameters of the development: the record `Plugins`.
-/

namespace Gulpfile

/-! ## Settings and paths (gulpfile.js lines 6-54) -/

/-- The feature toggles of `let settings = {...}`. -/
structure Settings where
  clean : Bool
  scripts : Bool
  libs : Bool
  polyfills : Bool
  styles : Bool
  svgs : Bool
  sprite : Bool
  images : Bool
  copy : Bool
  reload : Bool
  deriving DecidableEq, Repr

/-- The table as written in the source: every feature on. -/
def settings : Settings :=
  { clean := true, scripts := true, libs := true, polyfills := true, styles := true,
    svgs := true, sprite := true, images := true, copy := true, reload := true }

/-- The entry `paths.scripts`. -/
structure ScriptPaths where
  input : String
  watchPath : String
  polyfills : String
  output : String
  deriving DecidableEq, Repr

/-- An entry of `paths` with an input glob and an output directory. -/
structure InOut where
  input : String
  output : String
  deriving DecidableEq, Repr

/-- The shape of `let paths = {...}`. -/
structure Paths where
  input : String
  output : String
  scripts : ScriptPaths
  libs : InOut
  styles : InOut
  images : InOut
  svgs : InOut
  copy : InOut
  reload : String
  deriving DecidableEq, Repr

/-- The table `paths` as written in the source. -/
def paths : Paths :=
  { input := "src/"
    output := "dist/"
    scripts :=
      { input := "src/js/*"
        watchPath := "src/js/**/*.js"
        polyfills := ".polyfill.js"
        output := "dist/js/" }
    libs := { input := "src/libs/*", output := "dist/js/" }
    styles := { input := "src/sass/**/*.\x7bscss,sass\x7d", output := "dist/css/" }
    images := { input := "src/img/**/*.\x7bjpg,jpeg,gif,png\x7d", output := "dist/img/" }
    svgs := { input := "src/svg/*.svg", output := "dist/img/" }
    copy := { input := "src/copy/**/*", output := "dist/" }
    reload := "./dist/" }

/-- The asset classes that own an `output` entry in `paths`. -/
inductive AssetClass
  | scripts | libs | styles | images | svgs | copy
  deriving DecidableEq, Repr

/-- The output directory `paths.<class>.output`. -/
def AssetClass.output : AssetClass → String
  | .scripts => paths.scripts.output
  | .libs => paths.libs.output
  | .styles => paths.styles.output
  | .images => paths.images.output
  | .svgs => paths.svgs.output
  | .copy => paths.copy.output

/-- All asset classes. -/
def AssetClass.all : List AssetClass :=
  [.scripts, .libs, .styles, .images, .svgs, .copy]

/-! ## Banner (gulpfile.js lines 61-69) -/

/-- The fields of `package.json` the banner template reads. -/
structure Pkg where
  name : String
  version : String
  authorName : String
  license : String
  repositoryUrl : String
  deriving DecidableEq, Repr

/-- The text `header(banner.main, {pkg: pkg})` stamps: `banner.main` with its
template fields filled in from `pkg`; `year` is `new Date().getFullYear()`. -/
def bannerMain (year : String) (pkg : Pkg) : String :=
  "/*!" ++
  " " ++ pkg.name ++ " v" ++ pkg.version ++
  " | (c) " ++ year ++ " " ++ pkg.authorName ++
  " | " ++ pkg.license ++ " License" ++
  " | " ++ pkg.repositoryUrl ++
  " */\n"

/-! ## Files and the source tree -/

/-- A file travelling through a stream: its path relative to the glob base
and its contents. -/
structure File where
  relative : String
  contents : String
  deriving DecidableEq, Repr

/-- A file handed to `dest(dir)`. -/
structure Output where
  dir : String
  file : File
  deriving DecidableEq, Repr

/-- What `src(paths.scripts.input)` (the glob `src/js/*`) yields: a regular
file, or a directory, with its `file.path`, its `file.relative` and the
regular files directly inside it, in glob order. -/
inductive ScriptEntry
  | file (f : File)
  | dir (path : String) (relative : String) (children : List File)
  deriving DecidableEq, Repr

/-- The source tree as the tasks see it: the matches of every input glob.
`magicGlob` is what `src(globs)` yields for the globs `buildScripts` builds
from the path of a directory when that path holds characters that a glob
reads as syntax, so that the glob no longer names the directory. -/
structure Project where
  scripts : List ScriptEntry
  magicGlob : List String → List File
  libs : List File
  styles : List File
  svgs : List File
  images : List File
  copy : List File

/-- The third-party converters, taken as parameters. The ones that act on one
file's contents are functions on strings; `sass` and `svgstore` may drop or
merge files and act on the whole stream. -/
structure Plugins where
  optimizejs : String → String
  uglify : String → String
  sass : List File → List File
  postcssDev : String → String
  cssnano : String → String
  svgmin : String → String
  svgminCleanupIDs : String → String
  svgstore : List File → List File
  imagemin : String → String

/-- Everything a task invocation depends on. -/
structure Env where
  settings : Settings
  pkg : Pkg
  year : String
  plugins : Plugins
  project : Project

/-! ## Task names and composites -/

/-- The task functions of the gulpfile. -/
inductive TaskName
  | cleanDist | buildScripts | lintScripts | buildStyles | buildSVGs | svgSprite
  | images | copyFiles | copyJSLibs | startServer | reloadBrowser | watchSource
  deriving DecidableEq, Repr

/-- A composite built with gulp's `series` and `parallel`. -/
inductive Comp
  | task (t : TaskName)
  | series (cs : List Comp)
  | parallel (cs : List Comp)

/-- The task functions occurring in a composite, left to right. -/
def Comp.tasks : Comp → List TaskName
  | .task t => [t]
  | .series cs => go cs
  | .parallel cs => go cs
where
  /-- The task functions occurring in a list of composites. -/
  go : List Comp → List TaskName
  | [] => []
  | c :: cs => c.tasks ++ go cs

/-! ## Effects -/

/-- An observable action of a task body: a call of `del.sync`, of `src`, of
the jshint reporter on a file, a file written by `dest`, a call of
`browserSync.init` or `browserSync.reload`, a call of `watch`, the start of
an inner chain `src(globs)...` that is not returned to gulp (`fork`, with the
files the chain will hand to `dest`), or a call of the callback `done`. -/
inductive Effect
  | del (patterns : List String)
  | read (globs : List String)
  | lint (file : String)
  | write (dir : String) (file : File)
  | bsInit (baseDir : String)
  | bsReload
  | watchArm (globs : List String) (handler : Comp)
  | fork (globs : List String) (outputs : List Output)
  | done (error : Option String)

/-- Whether the effect touches the file system or browser-sync, that is,
whether it is anything but the completion callback. -/
def Effect.isWork : Effect → Bool
  | .done _ => false
  | _ => true

/-- Whether the effect is a call of `del.sync`. -/
def Effect.isDel : Effect → Bool
  | .del _ => true
  | _ => false

/-- Whether the effect is a call of `browserSync.reload`. -/
def Effect.isReload : Effect → Bool
  | .bsReload => true
  | _ => false

/-- Whether the effect is a call of `browserSync.init`. -/
def Effect.isInit : Effect → Bool
  | .bsInit _ => true
  | _ => false

/-- Whether the effect is a call of `watch`. -/
def Effect.isWatchArm : Effect → Bool
  | .watchArm _ _ => true
  | _ => false

/-- Whether the effect is a call of the completion callback. -/
def Effect.isDone : Effect → Bool
  | .done _ => true
  | _ => false

/-- What a chain started by `fork` does once it runs: it reads its globs and
writes its outputs. -/
def forkChain (globs : List String) (outputs : List Output) : List Effect :=
  .read globs :: outputs.map fun o => Effect.write o.dir o.file

/-- The path a `write` effect creates or overwrites. -/
def Effect.writtenPath : Effect → Option String
  | .write dir f => some (dir ++ f.relative)
  | _ => none

/-! ## Path helpers -/

/-- Whether `name` ends with `suffix`. -/
def endsWith (name suffix : String) : Bool :=
  suffix.data.isSuffixOf name.data

/-- The glob `*.js` applied to a file name: the name ends in `.js` and, as for
every glob star, does not begin with a dot. -/
def globStarJs (name : String) : Bool :=
  !(".".data.isPrefixOf name.data) && endsWith name ".js"

/-- The characters a glob reads as syntax. -/
def globSpecial : List Char :=
  ['*', '?', '[', ']', '\x7b', '\x7d', '(', ')', '!', '+', '@', '|', '#', Char.ofNat 92]

/-- Whether a path holds no character that a glob reads as syntax, so that a
glob beginning with it names this path and no other. -/
def plainPath (path : String) : Bool :=
  path.data.all fun c => !globSpecial.contains c

/-- Length of the directory part of a relative path (up to and including the
last slash). -/
def dirLength (rel : List Char) : Nat :=
  rel.length - (rel.reverse.takeWhile (fun c => c != '/')).length

/-- Length of the stem of a base name: everything before the last dot, or the
whole name when it has no dot or its only dot is the first character. -/
def stemLength (base : List Char) : Nat :=
  let ext := (base.reverse.takeWhile (fun c => c != '.')).length
  if ext = base.length ∨ base.length - ext - 1 = 0 then base.length
  else base.length - ext - 1

/-- The path `rename({suffix: suffix})` gives a file: the suffix goes between
the stem and the extension of the base name. -/
def renameSuffix (suffix : String) (rel : String) : String :=
  let dir := rel.data.take (dirLength rel.data)
  let base := rel.data.drop (dirLength rel.data)
  let stem := base.take (stemLength base)
  let ext := base.drop (stemLength base)
  String.mk (dir ++ stem ++ suffix.data ++ ext)

/-! ## Stream pipelines -/

/-- One stage of a stream pipeline. -/
inductive Step
  | header (text : String)
  | optimizejs
  | uglify
  | dest (dir : String)
  | renameSuffix (suffix : String)
  | renameTo (path : String)
  | concat (name : String)
  | sass
  | postcssDev
  | postcssMinify
  | svgmin
  | svgminCleanupIDs
  | svgstore
  | imagemin
  deriving DecidableEq, Repr

/-- Apply a converter to the contents of a file. -/
def File.mapContents (g : String → String) (f : File) : File :=
  { f with contents := g f.contents }

/-- The stage `concat(name)`: one file named `name` holding the contents of all
incoming files joined by a newline; no file goes out when none came in. -/
def concatFiles (name : String) (fs : List File) : List File :=
  if fs.isEmpty then []
  else [{ relative := name, contents := String.intercalate "\n" (fs.map File.contents) }]

/-- What a stage does to the files flowing through it, with the writes it
performs. -/
def Step.run (p : Plugins) : Step → List File → List File × List Output
  | .header text, fs => (fs.map (File.mapContents fun c => text ++ c), [])
  | .optimizejs, fs => (fs.map (File.mapContents p.optimizejs), [])
  | .uglify, fs => (fs.map (File.mapContents p.uglify), [])
  | .dest dir, fs => (fs, fs.map (Output.mk dir))
  | .renameSuffix suffix, fs =>
      (fs.map fun f => { f with relative := Gulpfile.renameSuffix suffix f.relative }, [])
  | .renameTo path, fs => (fs.map fun f => { f with relative := path }, [])
  | .concat name, fs => (concatFiles name fs, [])
  | .sass, fs => (p.sass fs, [])
  | .postcssDev, fs => (fs.map (File.mapContents p.postcssDev), [])
  | .postcssMinify, fs => (fs.map (File.mapContents p.cssnano), [])
  | .svgmin, fs => (fs.map (File.mapContents p.svgmin), [])
  | .svgminCleanupIDs, fs => (fs.map (File.mapContents p.svgminCleanupIDs), [])
  | .svgstore, fs => (p.svgstore fs, [])
  | .imagemin, fs => (fs.map (File.mapContents p.imagemin), [])

/-- Run a pipeline on a stream of files: the files that come out of the last
stage and the files handed to `dest` on the way, listed stage by stage (the
order in which Node lets the files of one stream pass a stage is not
modelled). -/
def runSteps (p : Plugins) : List Step → List File → List File × List Output
  | [], fs => (fs, [])
  | s :: ss, fs =>
      ((runSteps p ss (s.run p fs).1).1, (s.run p fs).2 ++ (runSteps p ss (s.run p fs).1).2)

/-- The files a pipeline hands to its `dest` stages, stage by stage. -/
def pipeOutputs (p : Plugins) (steps : List Step) (fs : List File) : List Output :=
  (runSteps p steps fs).2

/-- The writes a pipeline performs on a stream of files. -/
def pipeWrites (p : Plugins) (steps : List Step) (fs : List File) : List Effect :=
  (pipeOutputs p steps fs).map fun o => Effect.write o.dir o.file

/-! ## Gulp tasks (gulpfile.js lines 116-341) -/

/-- `cleanDist`: delete the output folder. -/
def cleanDist (env : Env) : List Effect :=
  if !env.settings.clean then [.done none]
  else [.del [paths.output], .done none]

/-- The lazypipe `jsTasks`. -/
def jsTasks (env : Env) : List Step :=
  [ .header (bannerMain env.year env.pkg),
    .optimizejs,
    .dest paths.scripts.output,
    .renameSuffix ".min",
    .uglify,
    .optimizejs,
    .header (bannerMain env.year env.pkg),
    .dest paths.scripts.output ]

/-- What `src(file.path + '/*.js')` yields for a directory at `path` holding
the files `children`. The path is pasted into the glob as it is: when it is
plain the glob matches the files of this directory whose names match `*.js`;
when it holds glob syntax the glob means something else and the result is
whatever the file system gives for it. -/
def allScripts (env : Env) (path : String) (children : List File) : List File :=
  if plainPath path then children.filter fun f => globStarJs f.relative
  else env.project.magicGlob [path ++ "/*.js"]

/-- What
`src([file.path + '/*.js', '!' + file.path + '/*' + paths.scripts.polyfills])`
yields for a directory at `path` holding the files `children`: for a plain
path the files matching `*.js` whose names do not end in the polyfill
suffix. -/
def mainScripts (env : Env) (path : String) (children : List File) : List File :=
  if plainPath path then
    (children.filter fun f => globStarJs f.relative).filter
      fun f => !endsWith f.relative paths.scripts.polyfills
  else env.project.magicGlob [path ++ "/*.js", "!" ++ path ++ "/*" ++ paths.scripts.polyfills]

/-- The callback handed to `flatmap` in `buildScripts`, for one entry of
`src/js/*`. A regular file is piped through `jsTasks` and the result is
returned. For a directory the inner chains `src(...).pipe(concat(...))
.pipe(jsTasks())` are started but not returned (each is a `fork`), and the
stream holding the directory entry itself is returned unchanged, for which
nothing is written. -/
def scriptEntry (env : Env) : ScriptEntry → List Effect
  | .dir path relative children =>
      let suffix := if env.settings.polyfills then ".polyfills" else ""
      (if env.settings.polyfills then
        [Effect.fork [path ++ "/*.js", "!" ++ path ++ "/*" ++ paths.scripts.polyfills]
          (pipeOutputs env.plugins (.concat (relative ++ ".js") :: jsTasks env)
            (mainScripts env path children))]
      else []) ++
      [Effect.fork [path ++ "/*.js"]
        (pipeOutputs env.plugins (.concat (relative ++ suffix ++ ".js") :: jsTasks env)
          (allScripts env path children))]
  | .file f => pipeWrites env.plugins (jsTasks env) [f]

/-- `buildScripts`: concatenate, stamp and minify scripts. -/
def buildScripts (env : Env) : List Effect :=
  if !env.settings.scripts then [.done none]
  else .read [paths.scripts.input] :: (env.project.scripts.map (scriptEntry env)).flatten

/-- The regular files among the entries of `src/js/*`. -/
def topLevelFiles : List ScriptEntry → List File
  | [] => []
  | .file f :: es => f :: topLevelFiles es
  | .dir _ _ _ :: es => topLevelFiles es

/-- `lintScripts`: run jshint and its reporter over `src/js/*`. -/
def lintScripts (env : Env) : List Effect :=
  if !env.settings.scripts then [.done none]
  else .read [paths.scripts.input] ::
    (topLevelFiles env.project.scripts).map fun f => Effect.lint f.relative

/-- The chain of stages inside `buildStyles`. -/
def stylesSteps (env : Env) : List Step :=
  [ .sass,
    .postcssDev,
    .header (bannerMain env.year env.pkg),
    .dest paths.styles.output,
    .renameSuffix ".min",
    .postcssMinify,
    .dest paths.styles.output ]

/-- `buildStyles`: compile, stamp and minify Sass files. -/
def buildStyles (env : Env) : List Effect :=
  if !env.settings.styles then [.done none]
  else .read [paths.styles.input] :: pipeWrites env.plugins (stylesSteps env) env.project.styles

/-- `buildSVGs`: optimise SVG files. -/
def buildSVGs (env : Env) : List Effect :=
  if !env.settings.svgs then [.done none]
  else .read [paths.svgs.input] ::
    pipeWrites env.plugins [.svgmin, .dest paths.svgs.output] env.project.svgs

/-- `svgSprite`: merge the SVG files into `sprite.svg`. -/
def svgSprite (env : Env) : List Effect :=
  if !env.settings.sprite then [.done none]
  else .read [paths.svgs.input] ::
    pipeWrites env.plugins
      [.svgminCleanupIDs, .svgstore, .renameTo "sprite.svg", .dest paths.svgs.output]
      env.project.svgs

/-- `images`: optimise raster images. -/
def images (env : Env) : List Effect :=
  if !env.settings.images then [.done none]
  else .read [paths.images.input] ::
    pipeWrites env.plugins [.imagemin, .dest paths.images.output] env.project.images

/-- `copyFiles`: copy static files. -/
def copyFiles (env : Env) : List Effect :=
  if !env.settings.copy then [.done none]
  else .read [paths.copy.input] ::
    pipeWrites env.plugins [.dest paths.copy.output] env.project.copy

/-- `copyJSLibs`: copy script libraries. -/
def copyJSLibs (env : Env) : List Effect :=
  if !env.settings.libs then [.done none]
  else .read [paths.libs.input] ::
    pipeWrites env.plugins [.dest paths.libs.output] env.project.libs

/-- `startServer`: initialise browser-sync. -/
def startServer (env : Env) : List Effect :=
  if !env.settings.reload then [.done none]
  else [.bsInit paths.reload, .done none]

/-- `reloadBrowser`: ask browser-sync to reload. -/
def reloadBrowser (env : Env) : List Effect :=
  if !env.settings.reload then [.done none]
  else [.bsReload, .done none]

/-! ## Exported composites (gulpfile.js lines 350-391) -/

/-- `exports.default`. -/
def exports.default : Comp :=
  .series
    [ .task .cleanDist,
      .parallel
        [ .task .buildScripts,
          .task .lintScripts,
          .task .buildStyles,
          .task .buildSVGs,
          .task .svgSprite,
          .task .images,
          .task .copyFiles,
          .task .copyJSLibs ] ]

/-- `exports.watch`. -/
def exports.watch : Comp :=
  .series [exports.default, .task .startServer, .task .watchSource]

/-- `exports.scripts`. -/
def exports.scripts : Comp :=
  .parallel [.task .buildScripts, .task .lintScripts]

/-- `exports.styles`. -/
def exports.styles : Comp := .task .buildStyles

/-- `exports.assets`. -/
def exports.assets : Comp :=
  .series [.task .buildSVGs, .task .svgSprite, .task .images]

/-- `exports.copyFiles`. -/
def exports.copyFiles : Comp := .task .copyFiles

/-- `exports.copyJSLibs`. -/
def exports.copyJSLibs : Comp := .task .copyJSLibs

/-- Everything the gulpfile exports. -/
def exports.all : List Comp :=
  [ exports.default, exports.watch, exports.scripts, exports.styles, exports.assets,
    exports.copyFiles, exports.copyJSLibs ]

/-- A call `watch(globs, handler)`. -/
structure Binding where
  globs : List String
  handler : Comp

/-- The five calls of `watch` in `watchSource`, in source order. -/
def watchBindings : List Binding :=
  [ { globs := [paths.scripts.watchPath],
      handler := .series [exports.scripts, .task .reloadBrowser] },
    { globs := [paths.libs.input],
      handler := .series [exports.copyJSLibs, .task .reloadBrowser] },
    { globs := [paths.styles.input],
      handler := .series [exports.styles, .task .reloadBrowser] },
    { globs := [paths.svgs.input, paths.images.input],
      handler := .series [exports.assets, .task .reloadBrowser] },
    { globs := [paths.copy.input],
      handler := .series [exports.copyFiles, .task .reloadBrowser] } ]

/-- `watchSource`: arm the five watchers, then signal completion. -/
def watchSource (_env : Env) : List Effect :=
  watchBindings.map (fun b => Effect.watchArm b.globs b.handler) ++ [.done none]

/-- The body of each task function. -/
def body (env : Env) : TaskName → List Effect
  | .cleanDist => cleanDist env
  | .buildScripts => buildScripts env
  | .lintScripts => lintScripts env
  | .buildStyles => buildStyles env
  | .buildSVGs => buildSVGs env
  | .svgSprite => svgSprite env
  | .images => images env
  | .copyFiles => copyFiles env
  | .copyJSLibs => copyJSLibs env
  | .startServer => startServer env
  | .reloadBrowser => reloadBrowser env
  | .watchSource => watchSource env

/-- The toggle a task function tests in its first statement, if it has one. -/
def toggle (s : Settings) : TaskName → Option Bool
  | .cleanDist => some s.clean
  | .buildScripts => some s.scripts
  | .lintScripts => some s.scripts
  | .buildStyles => some s.styles
  | .buildSVGs => some s.svgs
  | .svgSprite => some s.sprite
  | .images => some s.images
  | .copyFiles => some s.copy
  | .copyJSLibs => some s.libs
  | .startServer => some s.reload
  | .reloadBrowser => some s.reload
  | .watchSource => none

/-- The directory every write of a task function goes to. -/
def outputDir : TaskName → String
  | .buildScripts => paths.scripts.output
  | .buildStyles => paths.styles.output
  | .buildSVGs => paths.svgs.output
  | .svgSprite => paths.svgs.output
  | .images => paths.images.output
  | .copyFiles => paths.copy.output
  | .copyJSLibs => paths.libs.output
  | _ => ""

/-! ## Running composites

gulp runs a task function and waits for its completion signal (the `done`
callback or the end of the returned stream). `series` starts a child when the
one before it has completed successfully and stops at the first failure;
`parallel` starts all children and completes when all have. -/

/-- How a task or composite ended. -/
inductive Outcome
  | ok | err
  deriving DecidableEq, Repr

/-- An outcome of a parallel group: success when both parts succeeded. -/
def Outcome.both : Outcome → Outcome → Outcome
  | .ok, .ok => .ok
  | _, _ => .err

/-- An event of a run: a task function is started, performs an effect of its
body, or completes; or a chain that a task function forked performs an
effect (`late`). -/
inductive Ev
  | start (t : TaskName)
  | eff (t : TaskName) (e : Effect)
  | finish (t : TaskName) (o : Outcome)
  | late (t : TaskName) (e : Effect)

/-- The task an event belongs to. -/
def Ev.task : Ev → TaskName
  | .start t => t
  | .eff t _ => t
  | .finish t _ => t
  | .late t _ => t

/-- The effect an event carries, if any. -/
def Ev.effect : Ev → Option Effect
  | .eff _ e => some e
  | .late _ e => some e
  | _ => none

/-- Whether the event is an effect of a forked chain. -/
def Ev.isLate : Ev → Bool
  | .late _ _ => true
  | _ => false

/-- The events of a trace that gulp orders: all but those of forked chains. -/
def ordered (tr : List Ev) : List Ev :=
  tr.filter fun x => !x.isLate

/-- The paths of all the writes in a trace. -/
def writtenPaths : List Ev → List String
  | [] => []
  | ev :: tr =>
    match ev.effect with
    | some (.write dir f) => (dir ++ f.relative) :: writtenPaths tr
    | _ => writtenPaths tr

/-- The number of events of a trace that carry an effect satisfying `p`. -/
def countEffects (p : Effect → Bool) : List Ev → Nat
  | [] => 0
  | ev :: tr =>
    match ev.effect with
    | some e => (if p e then 1 else 0) + countEffects p tr
    | none => countEffects p tr

/-- The trace `t` is an interleaving of the traces `l` and `r`. -/
inductive Interleave : List Ev → List Ev → List Ev → Prop
  | nil : Interleave [] [] []
  | left (a : Ev) {l r t : List Ev} : Interleave l r t → Interleave (a :: l) r (a :: t)
  | right (a : Ev) {l r t : List Ev} : Interleave l r t → Interleave l (a :: r) (a :: t)

/-- The runs of a composite as gulp orders them: `Runs env c tr o` says that
`tr` is a possible sequence of starts, body effects and completions of one
run of `c`, ending with outcome `o`. What forked chains do is added by
`Trace`.

A task invocation that succeeds performs its whole body. One that fails
performs some of the work at the head of its body and does not call `done`;
a body without work (a disabled feature) cannot fail. -/
inductive Runs (env : Env) : Comp → List Ev → Outcome → Prop
  | taskOk (t : TaskName) :
      Runs env (.task t) (Ev.start t :: (body env t).map (Ev.eff t) ++ [Ev.finish t .ok]) .ok
  | taskErr (t : TaskName) (pre post : List Effect) :
      body env t = pre ++ post →
      (∀ e ∈ pre, e.isWork = true) →
      (∃ e ∈ body env t, e.isWork = true) →
      Runs env (.task t) (Ev.start t :: pre.map (Ev.eff t) ++ [Ev.finish t .err]) .err
  | seriesNil : Runs env (.series []) [] .ok
  | seriesOk {c : Comp} {cs : List Comp} {t1 t2 : List Ev} {o : Outcome} :
      Runs env c t1 .ok → Runs env (.series cs) t2 o →
      Runs env (.series (c :: cs)) (t1 ++ t2) o
  | seriesErr {c : Comp} {cs : List Comp} {t1 : List Ev} :
      Runs env c t1 .err → Runs env (.series (c :: cs)) t1 .err
  | parallelNil : Runs env (.parallel []) [] .ok
  | parallelCons {c : Comp} {cs : List Comp} {t1 t2 t : List Ev} {o1 o2 : Outcome} :
      Runs env c t1 o1 → Runs env (.parallel cs) t2 o2 → Interleave t1 t2 t →
      Runs env (.parallel (c :: cs)) t (o1.both o2)

/-- The run of a composite in which nothing fails and the children of every
parallel group run one after the other, in listed order. -/
def runInOrder (env : Env) : Comp → List Ev
  | .task t => Ev.start t :: (body env t).map (Ev.eff t) ++ [Ev.finish t .ok]
  | .series cs => go cs
  | .parallel cs => go cs
where
  /-- The runs of a list of composites, one after the other. -/
  go : List Comp → List Ev
  | [] => []
  | c :: cs => runInOrder env c ++ go cs

/-- The chains an event starts: a `fork` performed by `t` starts one. -/
def Ev.forks : Ev → List (TaskName × List Effect)
  | .eff t (.fork globs outputs) => [(t, forkChain globs outputs)]
  | _ => []

/-- Adding the effects of forked chains to a run. `Scatter pending run tr` says
that `tr` consists of the events of `run` in their order, with effects of the
chains in `pending` and of the chains forked on the way put in between or
after: every chain performs its effects in order, each at any point after
the one before it, and may be cut short (when it fails or the process
ends). -/
inductive Scatter : List (TaskName × List Effect) → List Ev → List Ev → Prop
  | nil (pending : List (TaskName × List Effect)) : Scatter pending [] []
  | step (x : Ev) {pending : List (TaskName × List Effect)} {run tr : List Ev} :
      Scatter (pending ++ x.forks) run tr → Scatter pending (x :: run) (x :: tr)
  | late (t : TaskName) (e : Effect) (es : List Effect)
      {before after : List (TaskName × List Effect)} {run tr : List Ev} :
      Scatter (before ++ (t, es) :: after) run tr →
      Scatter (before ++ (t, e :: es) :: after) run (Ev.late t e :: tr)

/-- The traces of a composite: a run as gulp orders it, with the effects of
the chains forked in it. -/
def Trace (env : Env) (c : Comp) (tr : List Ev) (o : Outcome) : Prop :=
  ∃ run, Runs env c run o ∧ Scatter [] run tr

/-- As `Scatter`, but no chain is cut short: the trace ends when every chain
has performed all its effects. -/
inductive Settle : List (TaskName × List Effect) → List Ev → List Ev → Prop
  | nil (pending : List (TaskName × List Effect)) :
      (∀ p ∈ pending, p.2 = []) → Settle pending [] []
  | step (x : Ev) {pending : List (TaskName × List Effect)} {run tr : List Ev} :
      Settle (pending ++ x.forks) run tr → Settle pending (x :: run) (x :: tr)
  | late (t : TaskName) (e : Effect) (es : List Effect)
      {before after : List (TaskName × List Effect)} {run tr : List Ev} :
      Settle (before ++ (t, es) :: after) run tr →
      Settle (before ++ (t, e :: es) :: after) run (Ev.late t e :: tr)

/-- The traces of a composite in which every forked chain runs to its end. -/
def CompleteTrace (env : Env) (c : Comp) (tr : List Ev) (o : Outcome) : Prop :=
  ∃ run, Runs env c run o ∧ Settle [] run tr

/-- A run with every forked chain performing all its effects right after the
fork. -/
def settle : List Ev → List Ev
  | [] => []
  | .eff t (.fork globs outputs) :: run =>
      Ev.eff t (.fork globs outputs) :: (forkChain globs outputs).map (Ev.late t) ++ settle run
  | x :: run => x :: settle run

/-- The trace of a composite in which nothing fails, the children of every
parallel group run one after the other, and forked chains run at once. -/
def traceInOrder (env : Env) (c : Comp) : List Ev :=
  settle (runInOrder env c)

/-! ## The output tree -/

/-- The files on disk: paths with their contents. -/
abbrev FS := List (String × String)

/-- Whether `path` lies under one of the directories `dirs`. -/
def isUnder (dirs : List String) (path : String) : Bool :=
  dirs.any fun d => d.data.isPrefixOf path.data

/-- The contents of the file at `path`, if it exists. -/
def FS.read (fs : FS) (path : String) : Option String :=
  (fs.find? fun e => e.1 == path).map Prod.snd

/-- What an effect does to the files on disk: `del.sync` removes everything
under the given directories, `dest` creates or overwrites one file. -/
def applyEffect (fs : FS) : Effect → FS
  | .del patterns => fs.filter fun e => !isUnder patterns e.1
  | .write dir f => (dir ++ f.relative, f.contents) :: fs.filter fun e => !(e.1 == dir ++ f.relative)
  | _ => fs

/-- What an event does to the files on disk. -/
def applyEv (fs : FS) : Ev → FS
  | .eff _ e => applyEffect fs e
  | .late _ e => applyEffect fs e
  | _ => fs

/-- The files on disk after a trace. -/
def applyTrace (fs : FS) (tr : List Ev) : FS :=
  tr.foldl applyEv fs

/-! ## A small project used to exercise the definitions -/

/-- Remove every `/* ... */` comment from a text; `inside` says whether the
text starts inside a comment. -/
def stripComments : Bool → List Char → List Char
  | _, [] => []
  | false, '/' :: '*' :: rest => stripComments true rest
  | false, c :: rest => c :: stripComments false rest
  | true, '*' :: '/' :: rest => stripComments false rest
  | true, _ :: rest => stripComments true rest

/-- Stand-ins for the converters. The script minifier marks its input, the
Sass compiler gives every file the extension `.css`, the style minifier
removes all comments (as `discardComments: { removeAll: true }` asks), the
sprite builder emits one file when it received any. -/
def demoPlugins : Plugins :=
  { optimizejs := fun c => c
    uglify := fun c => "min:" ++ c
    sass := fun fs => fs.map fun f =>
      { f with relative := String.mk (f.relative.data.take (stemLength f.relative.data)) ++ ".css" }
    postcssDev := fun c => c
    cssnano := fun c => String.mk (stripComments false c.data)
    svgmin := fun c => c
    svgminCleanupIDs := fun c => c
    svgstore := fun fs =>
      if fs.isEmpty then [] else [{ relative := "svg.svg", contents := "<svg/>" }]
    imagemin := fun c => c }

/-- Package metadata of the demo project. -/
def demoPkg : Pkg :=
  { name := "demo", version := "1.0.0", authorName := "Ann", license := "MIT",
    repositoryUrl := "http://example.org/demo" }

/-- A source tree with one top-level script, one script directory holding
`x.js`, `y.js` and `y.polyfill.js`, and one file of every other class. -/
def demoProject : Project :=
  { magicGlob := fun _ => []
    scripts :=
      [ .file { relative := "app.js", contents := "A" },
        .dir "src/js/main" "main"
          [ { relative := "x.js", contents := "X" },
            { relative := "y.js", contents := "Y" },
            { relative := "y.polyfill.js", contents := "P" } ] ]
    libs := [{ relative := "lib.js", contents := "L" }]
    styles := [{ relative := "site.scss", contents := "a{}" }]
    svgs := [{ relative := "icon.svg", contents := "I" }]
    images := [{ relative := "photo.png", contents := "G" }]
    copy := [{ relative := "index.html", contents := "H" }] }

/-- The demo project with the settings table of the source (everything on). -/
def demoEnv : Env :=
  { settings := settings, pkg := demoPkg, year := "2026", plugins := demoPlugins,
    project := demoProject }

/-- The demo project with every feature switched off. -/
def demoEnvOff : Env :=
  { demoEnv with
    settings :=
      { clean := false, scripts := false, libs := false, polyfills := false, styles := false,
        svgs := false, sprite := false, images := false, copy := false, reload := false } }

/-- The demo project with everything on except `clean`. -/
def demoEnvNoClean : Env :=
  { demoEnv with settings := { settings with clean := false } }

/-- A script directory whose only file is a polyfill. -/
def polyfillOnlyDir : ScriptEntry :=
  .dir "src/js/main" "main" [{ relative := "a.polyfill.js", contents := "P" }]

/-- The demo project with that directory as its only script entry. -/
def polyfillOnlyEnv : Env :=
  { demoEnv with project := { demoProject with scripts := [polyfillOnlyDir] } }

/-- A script directory whose name holds glob syntax. -/
def bracketDir : ScriptEntry :=
  .dir "src/js/lib[1]" "lib[1]"
    [{ relative := "x.js", contents := "X" }, { relative := "y.polyfill.js", contents := "P" }]

/-- The demo project with that directory as its only script entry; the globs
built from its path match nothing. -/
def bracketEnv : Env :=
  { demoEnv with project := { demoProject with scripts := [bracketDir] } }

/-- The output tree holding one stale file that no task produces. -/
def staleFS : FS := [("dist/old.txt", "stale")]



/-! ## Lemmas on traces -/

theorem Interleave.mem_iff {l r t : List Ev} (h : Interleave l r t) (x : Ev) :
    x ∈ t ↔ x ∈ l ∨ x ∈ r := by
  induction h with
  | nil => simp
  | left a _ ih => simp only [List.mem_cons, ih]; tauto
  | right a _ ih => simp only [List.mem_cons, ih]; tauto

theorem Interleave.append (l r : List Ev) : Interleave l r (l ++ r) := by
  induction l with
  | nil =>
    induction r with
    | nil => exact Interleave.nil
    | cons a r ih => exact Interleave.right a ih
  | cons a l ih => exact Interleave.left a ih

theorem Comp.tasks_series_cons (c : Comp) (cs : List Comp) :
    (Comp.series (c :: cs)).tasks = c.tasks ++ (Comp.series cs).tasks := by
  simp [Comp.tasks, Comp.tasks.go]

theorem Comp.tasks_parallel_cons (c : Comp) (cs : List Comp) :
    (Comp.parallel (c :: cs)).tasks = c.tasks ++ (Comp.parallel cs).tasks := by
  simp [Comp.tasks, Comp.tasks.go]

/-- Every event of a run belongs to a task function of the composite, and every
effect in it comes from the body of its task. -/
theorem Runs.event_sound {env : Env} {c : Comp} {tr : List Ev} {o : Outcome}
    (h : Runs env c tr o) :
    ∀ ev ∈ tr, ev.task ∈ c.tasks ∧ ∀ e, ev.effect = some e → e ∈ body env ev.task := by
  induction h with
  | taskOk t =>
    intro ev hev
    simp only [List.cons_append, List.mem_cons, List.mem_append, List.mem_map,
      List.mem_singleton, List.not_mem_nil, or_false] at hev
    rcases hev with rfl | ⟨e, he, rfl⟩ | rfl
    · simp [Ev.task, Ev.effect, Comp.tasks]
    · simp [Ev.task, Ev.effect, Comp.tasks, he]
    · simp [Ev.task, Ev.effect, Comp.tasks]
  | taskErr t pre post hb _ _ =>
    intro ev hev
    simp only [List.cons_append, List.mem_cons, List.mem_append, List.mem_map,
      List.mem_singleton, List.not_mem_nil, or_false] at hev
    rcases hev with rfl | ⟨e, he, rfl⟩ | rfl
    · simp [Ev.task, Ev.effect, Comp.tasks]
    · simp [Ev.task, Ev.effect, Comp.tasks, hb, he]
    · simp [Ev.task, Ev.effect, Comp.tasks]
  | seriesNil => simp
  | seriesOk _ _ ih1 ih2 =>
    intro ev hev
    rw [Comp.tasks_series_cons]
    rcases List.mem_append.1 hev with h1 | h2
    · exact ⟨List.mem_append_left _ (ih1 ev h1).1, (ih1 ev h1).2⟩
    · exact ⟨List.mem_append_right _ (ih2 ev h2).1, (ih2 ev h2).2⟩
  | seriesErr _ ih =>
    intro ev hev
    rw [Comp.tasks_series_cons]
    exact ⟨List.mem_append_left _ (ih ev hev).1, (ih ev hev).2⟩
  | parallelNil => simp
  | parallelCons _ _ hi ih1 ih2 =>
    intro ev hev
    rw [Comp.tasks_parallel_cons]
    rcases (hi.mem_iff ev).1 hev with h1 | h2
    · exact ⟨List.mem_append_left _ (ih1 ev h1).1, (ih1 ev h1).2⟩
    · exact ⟨List.mem_append_right _ (ih2 ev h2).1, (ih2 ev h2).2⟩

/-- A successful run contains the successful completion of every task function
of the composite. -/
theorem Runs.finish_of_ok {env : Env} {c : Comp} {tr : List Ev} {o : Outcome}
    (h : Runs env c tr o) : o = .ok → ∀ t ∈ c.tasks, Ev.finish t .ok ∈ tr := by
  induction h with
  | taskOk t =>
    intro _ t' ht'
    simp only [Comp.tasks, List.mem_singleton] at ht'
    subst ht'
    simp
  | taskErr t pre post _ _ _ => intro ho; cases ho
  | seriesNil => intro _ t ht; simp [Comp.tasks, Comp.tasks.go] at ht
  | seriesOk _ _ ih1 ih2 =>
    intro ho t ht
    rw [Comp.tasks_series_cons] at ht
    rcases List.mem_append.1 ht with h1 | h2
    · exact List.mem_append_left _ (ih1 rfl t h1)
    · exact List.mem_append_right _ (ih2 ho t h2)
  | seriesErr _ _ => intro ho; cases ho
  | parallelNil => intro _ t ht; simp [Comp.tasks, Comp.tasks.go] at ht
  | @parallelCons c cs t1 t2 t o1 o2 _ _ hi ih1 ih2 =>
    intro ho t' ht
    have ho1 : o1 = .ok := by cases o1 <;> cases o2 <;> simp_all [Outcome.both]
    have ho2 : o2 = .ok := by cases o1 <;> cases o2 <;> simp_all [Outcome.both]
    rw [Comp.tasks_parallel_cons] at ht
    rcases List.mem_append.1 ht with h1 | h2
    · exact (hi.mem_iff _).2 (Or.inl (ih1 ho1 t' h1))
    · exact (hi.mem_iff _).2 (Or.inr (ih2 ho2 t' h2))

/-- Runs of a list of composites one after the other are runs of their series. -/
theorem Runs.series_of_forall (env : Env) :
    ∀ cs : List Comp, (∀ c ∈ cs, Runs env c (runInOrder env c) .ok) →
      Runs env (.series cs) (runInOrder.go env cs) .ok
  | [], _ => Runs.seriesNil
  | c :: cs, h =>
    Runs.seriesOk (h c (List.mem_cons_self _ _))
      (Runs.series_of_forall env cs fun c' hc' => h c' (List.mem_cons_of_mem _ hc'))

/-- Runs of a list of composites one after the other are runs of their
parallel group. -/
theorem Runs.parallel_of_forall (env : Env) :
    ∀ cs : List Comp, (∀ c ∈ cs, Runs env c (runInOrder env c) .ok) →
      Runs env (.parallel cs) (runInOrder.go env cs) .ok
  | [], _ => Runs.parallelNil
  | c :: cs, h =>
    Runs.parallelCons (h c (List.mem_cons_self _ _))
      (Runs.parallel_of_forall env cs fun c' hc' => h c' (List.mem_cons_of_mem _ hc'))
      (Interleave.append _ _)

/-- Every composite has a run: the one in listed order in which nothing
fails. -/
theorem Runs.inOrder (env : Env) : ∀ c : Comp, Runs env c (runInOrder env c) .ok
  | .task t => Runs.taskOk t
  | .series cs => Runs.series_of_forall env cs (go cs)
  | .parallel cs => Runs.parallel_of_forall env cs (go cs)
where
  /-- The same for every member of a list of composites. -/
  go : ∀ cs : List Comp, ∀ c ∈ cs, Runs env c (runInOrder env c) .ok
  | [], _, h => absurd h (List.not_mem_nil _)
  | c :: cs, c', h =>
    (Classical.em (c' = c)).elim (fun hc => hc ▸ Runs.inOrder env c)
      (fun hc => go cs c' (by simpa [hc] using h))

/-- Splitting a run of a series at its first child. -/
theorem Runs.series_cons_inv {env : Env} {c : Comp} {cs : List Comp} {tr : List Ev}
    {o : Outcome} (h : Runs env (.series (c :: cs)) tr o) :
    (∃ t1 t2, tr = t1 ++ t2 ∧ Runs env c t1 .ok ∧ Runs env (.series cs) t2 o) ∨
    (Runs env c tr .err ∧ o = .err) := by
  cases h with
  | seriesOk h1 h2 => exact Or.inl ⟨_, _, rfl, h1, h2⟩
  | seriesErr h1 => exact Or.inr ⟨h1, rfl⟩

/-- The shape of a run of a single task function. -/
theorem Runs.task_inv {env : Env} {t : TaskName} {tr : List Ev} {o : Outcome}
    (h : Runs env (.task t) tr o) :
    (o = .ok ∧ tr = Ev.start t :: (body env t).map (Ev.eff t) ++ [Ev.finish t .ok]) ∨
    (o = .err ∧ ∃ pre post, body env t = pre ++ post ∧ (∀ e ∈ pre, e.isWork = true) ∧
      (∃ e ∈ body env t, e.isWork = true) ∧
      tr = Ev.start t :: pre.map (Ev.eff t) ++ [Ev.finish t .err]) := by
  cases h with
  | taskOk => exact Or.inl ⟨rfl, rfl⟩
  | taskErr _ pre post hb hp hw => exact Or.inr ⟨rfl, pre, post, hb, hp, hw, rfl⟩

/-- An event that does not occur in the first part of a trace lies in the
second part. -/
theorem split_after_of_not_mem {t1 t2 pre post : List Ev} {x : Ev}
    (h : t1 ++ t2 = pre ++ x :: post) (hx : x ∉ t1) :
    ∃ mid, pre = t1 ++ mid ∧ t2 = mid ++ x :: post := by
  rcases List.append_eq_append_iff.1 h with ⟨a, ha, hb⟩ | ⟨c, hc, hd⟩
  · exact ⟨a, ha, hb⟩
  · cases c with
    | nil =>
      simp only [List.nil_append, List.append_nil] at hc hd
      exact ⟨[], by simp [hc], by simp [hd]⟩
    | cons y c =>
      simp only [List.cons_append, List.cons.injEq] at hd
      exfalso
      apply hx
      rw [hc, hd.1]
      simp

/-- In a run of a series, an event of a task function that does not occur in
the first child comes after a complete, successful run of the first child. -/
theorem Runs.series_before {env : Env} {c : Comp} {cs : List Comp} {tr pre post : List Ev}
    {o : Outcome} {x : Ev} (h : Runs env (.series (c :: cs)) tr o)
    (htr : tr = pre ++ x :: post) (hx : x.task ∉ c.tasks) :
    ∃ t1 mid, pre = t1 ++ mid ∧ Runs env c t1 .ok ∧
      Runs env (.series cs) (mid ++ x :: post) o := by
  rcases h.series_cons_inv with ⟨t1, t2, h12, h1, h2⟩ | ⟨h1, _⟩
  · have hnot : x ∉ t1 := fun hm => hx (h1.event_sound x hm).1
    obtain ⟨mid, hpre, ht2⟩ := split_after_of_not_mem (h12.symm.trans htr) hnot
    exact ⟨t1, mid, hpre, h1, ht2 ▸ h2⟩
  · exfalso
    apply hx
    refine (h1.event_sound x ?_).1
    rw [htr]
    simp

/-- A run, as gulp orders it, holds no event of a forked chain. -/
theorem Runs.not_late {env : Env} {c : Comp} {tr : List Ev} {o : Outcome}
    (h : Runs env c tr o) : ∀ ev ∈ tr, ev.isLate = false := by
  induction h with
  | taskOk t =>
    intro ev hev
    simp only [List.cons_append, List.mem_cons, List.mem_append, List.mem_map,
      List.mem_singleton, List.not_mem_nil, or_false] at hev
    rcases hev with rfl | ⟨e, _, rfl⟩ | rfl <;> rfl
  | taskErr t pre post _ _ _ =>
    intro ev hev
    simp only [List.cons_append, List.mem_cons, List.mem_append, List.mem_map,
      List.mem_singleton, List.not_mem_nil, or_false] at hev
    rcases hev with rfl | ⟨e, _, rfl⟩ | rfl <;> rfl
  | seriesNil => simp
  | seriesOk _ _ ih1 ih2 =>
    intro ev hev
    rcases List.mem_append.1 hev with h1 | h2
    · exact ih1 ev h1
    · exact ih2 ev h2
  | seriesErr _ ih => exact ih
  | parallelNil => simp
  | parallelCons _ _ hi ih1 ih2 =>
    intro ev hev
    rcases (hi.mem_iff ev).1 hev with h1 | h2
    · exact ih1 ev h1
    · exact ih2 ev h2

/-! ## Lemmas on pipelines and task bodies -/

/-- A pipeline hands files only to its own `dest` stages. -/
theorem pipeOutputs_sound (p : Plugins) :
    ∀ (steps : List Step) (fs : List File), ∀ o ∈ pipeOutputs p steps fs,
      Step.dest o.dir ∈ steps
  | [], fs, o, ho => by simp [pipeOutputs, runSteps] at ho
  | s :: ss, fs, o, ho => by
    simp only [pipeOutputs, runSteps, List.mem_append] at ho
    rcases ho with h1 | h2
    · cases s <;> simp only [Step.run, List.not_mem_nil, List.mem_map] at h1
      obtain ⟨f, _, rfl⟩ := h1
      simp
    · exact List.mem_cons_of_mem _ (pipeOutputs_sound p ss _ o h2)

/-- A pipeline performs only writes, each into the directory of one of its
`dest` stages. -/
theorem pipeWrites_sound (p : Plugins) (steps : List Step) (fs : List File) :
    ∀ e ∈ pipeWrites p steps fs, ∃ dir f, e = Effect.write dir f ∧ Step.dest dir ∈ steps := by
  intro e he
  obtain ⟨o, ho, rfl⟩ := List.mem_map.1 he
  exact ⟨o.dir, o.file, rfl, pipeOutputs_sound p steps fs o ho⟩

theorem pipeOutputs_concat (p : Plugins) (name : String) (steps : List Step)
    (fs : List File) :
    pipeOutputs p (.concat name :: steps) fs = pipeOutputs p steps (concatFiles name fs) := by
  simp [pipeOutputs, runSteps, Step.run]

/-- What `jsTasks` hands to `dest` for one file: the stamped and optimised
file under its own name, then the stamped, optimised, minified, optimised and
stamped again file under the name with `.min` put in. -/
theorem jsTasks_outputs (env : Env) (f : File) :
    pipeOutputs env.plugins (jsTasks env) [f] =
      [ { dir := paths.scripts.output,
          file :=
            { relative := f.relative,
              contents :=
                env.plugins.optimizejs (bannerMain env.year env.pkg ++ f.contents) } },
        { dir := paths.scripts.output,
          file :=
            { relative := renameSuffix ".min" f.relative,
              contents := bannerMain env.year env.pkg ++
                env.plugins.optimizejs (env.plugins.uglify
                  (env.plugins.optimizejs (bannerMain env.year env.pkg ++ f.contents))) } } ] := by
  simp [pipeOutputs, runSteps, Step.run, jsTasks, File.mapContents]

/-- The two writes of `jsTasks` for one file. -/
theorem jsTasks_writes (env : Env) (f : File) :
    pipeWrites env.plugins (jsTasks env) [f] =
      [ Effect.write paths.scripts.output
          { relative := f.relative,
            contents := env.plugins.optimizejs (bannerMain env.year env.pkg ++ f.contents) },
        Effect.write paths.scripts.output
          { relative := renameSuffix ".min" f.relative,
            contents := bannerMain env.year env.pkg ++
              env.plugins.optimizejs (env.plugins.uglify
                (env.plugins.optimizejs (bannerMain env.year env.pkg ++ f.contents))) } ] := by
  simp [pipeWrites, jsTasks_outputs]

/-- The flatmap callback of `buildScripts` writes, through `jsTasks`, into the
scripts output directory, and forks chains that do the same. -/
theorem scriptEntry_sound (env : Env) (entry : ScriptEntry) :
    ∀ e ∈ scriptEntry env entry,
      (∃ f, e = Effect.write paths.scripts.output f) ∨
      ∃ globs outputs, e = Effect.fork globs outputs ∧
        ∀ o ∈ outputs, o.dir = paths.scripts.output := by
  intro e he
  have hcjs : ∀ n d, Step.dest d ∈ Step.concat n :: jsTasks env → d = paths.scripts.output := by
    intro n d hd
    simp [jsTasks] at hd
    exact hd
  cases entry with
  | file f =>
    left
    obtain ⟨dir, f', rfl, hd⟩ := pipeWrites_sound env.plugins _ _ e he
    simp [jsTasks] at hd
    exact ⟨f', by rw [hd]⟩
  | dir path relative children =>
    right
    simp only [scriptEntry, List.mem_append, List.mem_singleton] at he
    rcases he with h1 | rfl
    · split at h1
      · rw [List.mem_singleton] at h1
        subst h1
        exact ⟨_, _, rfl, fun o ho => hcjs _ _ (pipeOutputs_sound _ _ _ o ho)⟩
      · simp at h1
    · exact ⟨_, _, rfl, fun o ho => hcjs _ _ (pipeOutputs_sound _ _ _ o ho)⟩

/-- The effects a task body can contain: `cleanDist` deletes the output folder
(only when `clean` is on), the build tasks read and write into their own
output directory, `buildScripts` also forks chains that write there, the
reload tasks talk to browser-sync, `watchSource` arms watchers. -/
theorem body_sound (env : Env) (t : TaskName) :
    ∀ e ∈ body env t,
      e = Effect.done none ∨
      (t = .cleanDist ∧ env.settings.clean = true ∧ e = Effect.del [paths.output]) ∨
      (∃ globs, e = Effect.read globs) ∨
      (∃ file, e = Effect.lint file ∧ t = .lintScripts) ∨
      (∃ f, e = Effect.write (outputDir t) f) ∨
      (t = .startServer ∧ env.settings.reload = true ∧ e = Effect.bsInit paths.reload) ∨
      (t = .reloadBrowser ∧ env.settings.reload = true ∧ e = Effect.bsReload) ∨
      (t = .watchSource ∧ ∃ b ∈ watchBindings, e = Effect.watchArm b.globs b.handler) ∨
      (t = .buildScripts ∧ ∃ globs outputs, e = Effect.fork globs outputs ∧
        ∀ o ∈ outputs, o.dir = outputDir t) := by
  intro e he
  have key : ∀ (steps : List Step) (fs : List File),
      (∀ d, Step.dest d ∈ steps → d = outputDir t) →
      e ∈ pipeWrites env.plugins steps fs → ∃ f, e = Effect.write (outputDir t) f := by
    intro steps fs hd hmem
    obtain ⟨dir, f, rfl, hdir⟩ := pipeWrites_sound env.plugins steps fs e hmem
    exact ⟨f, by rw [hd dir hdir]⟩
  cases t
  case cleanDist =>
    simp only [body, cleanDist] at he
    split at he
    · exact Or.inl (List.mem_singleton.1 he)
    · next hc =>
      simp only [List.mem_cons, List.mem_singleton, List.not_mem_nil, or_false] at he
      rcases he with rfl | rfl
      · exact Or.inr (Or.inl ⟨rfl, by simpa using hc, rfl⟩)
      · exact Or.inl rfl
  case buildScripts =>
    simp only [body, buildScripts] at he
    split at he
    · exact Or.inl (List.mem_singleton.1 he)
    · rcases List.mem_cons.1 he with h | h
      · exact Or.inr (Or.inr (Or.inl ⟨_, h⟩))
      · simp only [List.mem_flatten, List.mem_map] at h
        obtain ⟨l, ⟨entry, _, rfl⟩, hel⟩ := h
        rcases scriptEntry_sound env entry e hel with hw | hf
        · exact Or.inr (Or.inr (Or.inr (Or.inr (Or.inl hw))))
        · exact Or.inr (Or.inr (Or.inr (Or.inr (Or.inr (Or.inr (Or.inr (Or.inr ⟨rfl, hf⟩)))))))
  case lintScripts =>
    simp only [body, lintScripts] at he
    split at he
    · exact Or.inl (List.mem_singleton.1 he)
    · rcases List.mem_cons.1 he with h | h
      · exact Or.inr (Or.inr (Or.inl ⟨_, h⟩))
      · obtain ⟨f, _, rfl⟩ := List.mem_map.1 h
        exact Or.inr (Or.inr (Or.inr (Or.inl ⟨_, rfl, rfl⟩)))
  case buildStyles =>
    simp only [body, buildStyles] at he
    split at he
    · exact Or.inl (List.mem_singleton.1 he)
    · rcases List.mem_cons.1 he with h | h
      · exact Or.inr (Or.inr (Or.inl ⟨_, h⟩))
      · refine Or.inr (Or.inr (Or.inr (Or.inr (Or.inl (key _ _ ?_ h)))))
        intro d hd
        simp [stylesSteps] at hd
        simp [hd, outputDir]
  case buildSVGs =>
    simp only [body, buildSVGs] at he
    split at he
    · exact Or.inl (List.mem_singleton.1 he)
    · rcases List.mem_cons.1 he with h | h
      · exact Or.inr (Or.inr (Or.inl ⟨_, h⟩))
      · refine Or.inr (Or.inr (Or.inr (Or.inr (Or.inl (key _ _ ?_ h)))))
        intro d hd
        simp at hd
        simp [hd, outputDir]
  case svgSprite =>
    simp only [body, svgSprite] at he
    split at he
    · exact Or.inl (List.mem_singleton.1 he)
    · rcases List.mem_cons.1 he with h | h
      · exact Or.inr (Or.inr (Or.inl ⟨_, h⟩))
      · refine Or.inr (Or.inr (Or.inr (Or.inr (Or.inl (key _ _ ?_ h)))))
        intro d hd
        simp at hd
        simp [hd, outputDir]
  case images =>
    simp only [body, images] at he
    split at he
    · exact Or.inl (List.mem_singleton.1 he)
    · rcases List.mem_cons.1 he with h | h
      · exact Or.inr (Or.inr (Or.inl ⟨_, h⟩))
      · refine Or.inr (Or.inr (Or.inr (Or.inr (Or.inl (key _ _ ?_ h)))))
        intro d hd
        simp at hd
        simp [hd, outputDir]
  case copyFiles =>
    simp only [body, copyFiles] at he
    split at he
    · exact Or.inl (List.mem_singleton.1 he)
    · rcases List.mem_cons.1 he with h | h
      · exact Or.inr (Or.inr (Or.inl ⟨_, h⟩))
      · refine Or.inr (Or.inr (Or.inr (Or.inr (Or.inl (key _ _ ?_ h)))))
        intro d hd
        simp at hd
        simp [hd, outputDir]
  case copyJSLibs =>
    simp only [body, copyJSLibs] at he
    split at he
    · exact Or.inl (List.mem_singleton.1 he)
    · rcases List.mem_cons.1 he with h | h
      · exact Or.inr (Or.inr (Or.inl ⟨_, h⟩))
      · refine Or.inr (Or.inr (Or.inr (Or.inr (Or.inl (key _ _ ?_ h)))))
        intro d hd
        simp at hd
        simp [hd, outputDir]
  case startServer =>
    simp only [body, startServer] at he
    split at he
    · exact Or.inl (List.mem_singleton.1 he)
    · next hc =>
      simp only [List.mem_cons, List.mem_singleton, List.not_mem_nil, or_false] at he
      rcases he with rfl | rfl
      · exact Or.inr (Or.inr (Or.inr (Or.inr (Or.inr (Or.inl ⟨rfl, by simpa using hc, rfl⟩)))))
      · exact Or.inl rfl
  case reloadBrowser =>
    simp only [body, reloadBrowser] at he
    split at he
    · exact Or.inl (List.mem_singleton.1 he)
    · next hc =>
      simp only [List.mem_cons, List.mem_singleton, List.not_mem_nil, or_false] at he
      rcases he with rfl | rfl
      · exact Or.inr (Or.inr (Or.inr (Or.inr (Or.inr (Or.inr
          (Or.inl ⟨rfl, by simpa using hc, rfl⟩))))))
      · exact Or.inl rfl
  case watchSource =>
    simp only [body, watchSource, List.mem_append, List.mem_map, List.mem_singleton] at he
    rcases he with ⟨b, hb, rfl⟩ | rfl
    · exact Or.inr (Or.inr (Or.inr (Or.inr (Or.inr (Or.inr (Or.inr
        (Or.inl ⟨rfl, b, hb, rfl⟩)))))))
    · exact Or.inl rfl


/-! ## Forked chains -/

theorem ordered_append (a b : List Ev) : ordered (a ++ b) = ordered a ++ ordered b := by
  simp [ordered]

theorem ordered_cons_of_not_late (x : Ev) (tr : List Ev) (hx : x.isLate = false) :
    ordered (x :: tr) = x :: ordered tr := by
  simp [ordered, hx]

theorem mem_of_mem_ordered {x : Ev} {tr : List Ev} (h : x ∈ ordered tr) : x ∈ tr :=
  (List.mem_filter.1 h).1

theorem mem_ordered {x : Ev} {tr : List Ev} (h : x ∈ tr) (hx : x.isLate = false) :
    x ∈ ordered tr :=
  List.mem_filter.2 ⟨h, by simp [hx]⟩

/-- Taking the effects of forked chains out of a trace gives back the run. -/
theorem Scatter.ordered_eq {pending : List (TaskName × List Effect)} {run tr : List Ev}
    (h : Scatter pending run tr) (hrun : ∀ x ∈ run, x.isLate = false) : ordered tr = run := by
  induction h with
  | nil => rfl
  | step x _ ih =>
    rw [ordered_cons_of_not_late x _ (hrun x (List.mem_cons_self _ _)),
      ih fun y hy => hrun y (List.mem_cons_of_mem _ hy)]
  | @late t e es before after run tr _ ih =>
    have : ordered (Ev.late t e :: tr) = ordered tr := by simp [ordered, Ev.isLate]
    rw [this]
    exact ih hrun

/-- Every effect of a forked chain in a trace comes after the fork that
started the chain (or from a chain that was pending at the beginning). -/
theorem Scatter.late_after_fork {pending : List (TaskName × List Effect)} {run tr : List Ev}
    (h : Scatter pending run tr) (hrun : ∀ x ∈ run, x.isLate = false) :
    ∀ a b t e, tr = a ++ Ev.late t e :: b →
      (∃ es, (t, es) ∈ pending ∧ e ∈ es) ∨
      ∃ x ∈ a, x.isLate = false ∧ ∃ es, (t, es) ∈ x.forks ∧ e ∈ es := by
  induction h with
  | nil =>
    intro a b t e h
    simp at h
  | @step x pending run tr _ ih =>
    intro a b t e htr
    have hx : x.isLate = false := hrun x (List.mem_cons_self _ _)
    cases a with
    | nil =>
      simp only [List.nil_append, List.cons.injEq] at htr
      rw [htr.1] at hx
      simp [Ev.isLate] at hx
    | cons y a =>
      simp only [List.cons_append, List.cons.injEq] at htr
      obtain ⟨rfl, htr⟩ := htr
      rcases ih (fun z hz => hrun z (List.mem_cons_of_mem _ hz)) a b t e htr with
        ⟨es, hp, he⟩ | ⟨z, hz, hzl, hzf⟩
      · rcases List.mem_append.1 hp with hp | hp
        · exact Or.inl ⟨es, hp, he⟩
        · exact Or.inr ⟨x, List.mem_cons_self _ _, hx, es, hp, he⟩
      · exact Or.inr ⟨z, List.mem_cons_of_mem _ hz, hzl, hzf⟩
  | @late t0 e0 es0 before after run tr _ ih =>
    intro a b t e htr
    cases a with
    | nil =>
      simp only [List.nil_append, List.cons.injEq, Ev.late.injEq] at htr
      obtain ⟨⟨rfl, rfl⟩, _⟩ := htr
      exact Or.inl ⟨e0 :: es0, by simp, by simp⟩
    | cons y a =>
      simp only [List.cons_append, List.cons.injEq] at htr
      obtain ⟨rfl, htr⟩ := htr
      rcases ih hrun a b t e htr with ⟨es, hp, he⟩ | ⟨z, hz, hzl, hzf⟩
      · simp only [List.mem_append, List.mem_cons] at hp
        rcases hp with hp | hp | hp
        · exact Or.inl ⟨es, by simp [hp], he⟩
        · simp only [Prod.mk.injEq] at hp
          obtain ⟨rfl, rfl⟩ := hp
          exact Or.inl ⟨e0 :: es, by simp, List.mem_cons_of_mem _ he⟩
        · exact Or.inl ⟨es, by simp [hp], he⟩
      · exact Or.inr ⟨z, List.mem_cons_of_mem _ hz, hzl, hzf⟩

/-- A run without forks has no other trace than itself. -/
theorem Scatter.eq_of_no_fork {pending : List (TaskName × List Effect)} {run tr : List Ev}
    (h : Scatter pending run tr) (hp : ∀ p ∈ pending, p.2 = [])
    (hrun : ∀ x ∈ run, x.forks = []) : tr = run := by
  induction h with
  | nil => rfl
  | @step x pending run tr _ ih =>
    rw [ih _ fun y hy => hrun y (List.mem_cons_of_mem _ hy)]
    intro p hp'
    rw [hrun x (List.mem_cons_self _ _), List.append_nil] at hp'
    exact hp p hp'
  | @late t e es before after run tr _ _ =>
    have := hp (t, e :: es) (by simp)
    simp at this

/-- Forked chains do not change how often an effect occurs that no chain
performs. -/
theorem Scatter.countEffects_eq (p : Effect → Bool)
    {pending : List (TaskName × List Effect)} {run tr : List Ev}
    (h : Scatter pending run tr) (hp : ∀ q ∈ pending, ∀ e ∈ q.2, p e = false)
    (hrun : ∀ x ∈ run, ∀ q ∈ x.forks, ∀ e ∈ q.2, p e = false) :
    countEffects p tr = countEffects p run := by
  induction h with
  | nil => rfl
  | @step x pending run tr _ ih =>
    have := ih
      (fun q hq => by
        rcases List.mem_append.1 hq with h1 | h2
        · exact hp q h1
        · exact hrun x (List.mem_cons_self _ _) q h2)
      (fun y hy => hrun y (List.mem_cons_of_mem _ hy))
    simp only [countEffects, this]
  | @late t e es before after run tr _ ih =>
    have he : p e = false := hp (t, e :: es) (by simp) e (by simp)
    have := ih
      (fun q hq => by
        simp only [List.mem_append, List.mem_cons] at hq
        rcases hq with h1 | rfl | h1
        · exact hp q (by simp [h1])
        · intro e' he'
          exact hp (t, e :: es) (by simp) e' (List.mem_cons_of_mem _ he')
        · exact hp q (by simp [h1]))
      hrun
    simp [countEffects, Ev.effect, he, this]

theorem Scatter.chain {t : TaskName} {pending : List (TaskName × List Effect)}
    {run tr : List Ev} :
    ∀ es : List Effect, Scatter (pending ++ [(t, [])]) run tr →
      Scatter (pending ++ [(t, es)]) run (es.map (Ev.late t) ++ tr)
  | [], h => h
  | e :: es, h => Scatter.late t e es (Scatter.chain es h)

/-- Letting every forked chain run at once gives a trace of the run. -/
theorem Scatter.settle :
    ∀ (run : List Ev) (pending : List (TaskName × List Effect)),
      Scatter pending run (settle run)
  | [], pending => Scatter.nil pending
  | x :: run, pending => by
    cases x with
    | start t => exact Scatter.step _ (Scatter.settle run _)
    | finish t o => exact Scatter.step _ (Scatter.settle run _)
    | late t e => exact Scatter.step _ (Scatter.settle run _)
    | eff t e =>
      cases e with
      | fork globs outputs =>
        exact Scatter.step _ (Scatter.chain _ (Scatter.settle run _))
      | _ => exact Scatter.step _ (Scatter.settle run _)

/-- Every composite has a trace: the one in listed order in which nothing
fails and forked chains run at once. -/
theorem Trace.settled (env : Env) (c : Comp) : Trace env c (traceInOrder env c) .ok :=
  ⟨runInOrder env c, Runs.inOrder env c, Scatter.settle _ _⟩

/-- The gulp-ordered part of a trace is a run. -/
theorem Trace.runs_ordered {env : Env} {c : Comp} {tr : List Ev} {o : Outcome}
    (h : Trace env c tr o) : Runs env c (ordered tr) o := by
  obtain ⟨run, hr, hs⟩ := h
  rw [hs.ordered_eq hr.not_late]
  exact hr

/-- A trace of a run is derived from its gulp-ordered part. -/
theorem Trace.scatter_ordered {env : Env} {c : Comp} {tr : List Ev} {o : Outcome}
    (h : Trace env c tr o) : Scatter [] (ordered tr) tr := by
  obtain ⟨run, hr, hs⟩ := h
  rw [hs.ordered_eq hr.not_late]
  exact hs

/-- Every event of a trace belongs to a task function of the composite; an
effect of a body event comes from the body of its task, an effect of a
forked chain from a fork in the body of its task. -/
theorem Trace.effect_sound {env : Env} {c : Comp} {tr : List Ev} {o : Outcome}
    (h : Trace env c tr o) :
    ∀ ev ∈ tr, ev.task ∈ c.tasks ∧ ∀ e, ev.effect = some e →
      (ev.isLate = false ∧ e ∈ body env ev.task) ∨
      (ev.isLate = true ∧ ∃ globs outputs,
        Effect.fork globs outputs ∈ body env ev.task ∧ e ∈ forkChain globs outputs) := by
  intro ev hev
  have hr := h.runs_ordered
  cases hl : ev.isLate with
  | false =>
    have := hr.event_sound ev (mem_ordered hev hl)
    exact ⟨this.1, fun e he => Or.inl ⟨rfl, this.2 e he⟩⟩
  | true =>
    cases ev with
    | late t e =>
      obtain ⟨a, b, hab⟩ := List.append_of_mem hev
      rcases h.scatter_ordered.late_after_fork hr.not_late a b t e hab with
        ⟨es, hp, _⟩ | ⟨x, hx, hxl, es, hf, he⟩
      · simp at hp
      · have hxo : x ∈ ordered tr := mem_ordered (by rw [hab]; simp [hx]) hxl
        have hs := hr.event_sound x hxo
        cases x with
        | eff t' e' =>
          cases e' with
          | fork globs outputs =>
            simp only [Ev.forks, List.mem_singleton, Prod.mk.injEq] at hf
            obtain ⟨rfl, rfl⟩ := hf
            refine ⟨hs.1, fun e0 he0 => Or.inr ⟨rfl, globs, outputs, hs.2 _ rfl, ?_⟩⟩
            simp only [Ev.effect, Option.some.injEq] at he0
            exact he0 ▸ he
          | _ => simp [Ev.forks] at hf
        | _ => simp [Ev.forks] at hf
    | _ => simp [Ev.isLate] at hl


theorem ordered_split {tr pre post : List Ev} {x : Ev} (h : tr = pre ++ x :: post)
    (hx : x.isLate = false) : ordered tr = ordered pre ++ x :: ordered post := by
  rw [h, ordered_append, ordered_cons_of_not_late x post hx]

/-! ## Disabled features -/

/-- Claim C1. For every task function that tests a toggle, in every settings
table where that toggle is false: the body consists of exactly one call of
`done`, with no error argument, and of nothing else (no delete, no read, no
write, no fork, no browser-sync call); the invocation has a trace, and every
trace of it is start, `done()`, successful completion. -/
theorem disabled_task_is_noop (env : Env) (t : TaskName)
    (h : toggle env.settings t = some false) :
    body env t = [Effect.done none] ∧
    Trace env (.task t) [Ev.start t, Ev.eff t (.done none), Ev.finish t .ok] .ok ∧
    ∀ tr o, Trace env (.task t) tr o →
      tr = [Ev.start t, Ev.eff t (.done none), Ev.finish t .ok] ∧ o = .ok := by
  have hb : body env t = [Effect.done none] := by
    cases t <;>
      simp_all [toggle, body, cleanDist, buildScripts, lintScripts, buildStyles, buildSVGs,
        svgSprite, images, copyFiles, copyJSLibs, startServer, reloadBrowser]
  have hrun : ∀ run o, Runs env (.task t) run o →
      run = [Ev.start t, Ev.eff t (.done none), Ev.finish t .ok] ∧ o = .ok := by
    intro run o hr
    rcases hr.task_inv with ⟨ho, htr⟩ | ⟨_, pre, post, _, _, ⟨e, he, hw⟩, _⟩
    · exact ⟨by simpa [hb] using htr, ho⟩
    · rw [hb] at he
      simp only [List.mem_singleton] at he
      subst he
      simp [Effect.isWork] at hw
  have hok : Runs env (.task t) [Ev.start t, Ev.eff t (.done none), Ev.finish t .ok] .ok := by
    have := @Runs.taskOk env t
    simpa [hb] using this
  refine ⟨hb, ⟨_, hok, ?_⟩, ?_⟩
  · exact Scatter.step _ (Scatter.step _ (Scatter.step _ (Scatter.nil _)))
  · rintro tr o ⟨run, hr, hs⟩
    obtain ⟨rfl, rfl⟩ := hrun run o hr
    refine ⟨hs.eq_of_no_fork (by simp) ?_, rfl⟩
    intro x hx
    simp only [List.mem_cons, List.mem_singleton, List.not_mem_nil, or_false] at hx
    rcases hx with rfl | rfl | rfl <;> rfl

/-- Claim C1 on the demo project with every feature off, for `cleanDist`. -/
theorem disabled_task_is_noop_witness :
    toggle demoEnvOff.settings .cleanDist = some false ∧
    (body demoEnvOff .cleanDist = [Effect.done none] ∧
    Trace demoEnvOff (.task .cleanDist)
      [Ev.start .cleanDist, Ev.eff .cleanDist (.done none), Ev.finish .cleanDist .ok] .ok ∧
    ∀ tr o, Trace demoEnvOff (.task .cleanDist) tr o →
      tr = [Ev.start .cleanDist, Ev.eff .cleanDist (.done none), Ev.finish .cleanDist .ok] ∧
        o = .ok) :=
  ⟨rfl, disabled_task_is_noop demoEnvOff .cleanDist rfl⟩

/-! ## Ordering of the default build and of watch mode -/

/-- In a run of the default build a start of one of the eight build tasks
comes after the successful completion of `cleanDist`. -/
theorem Runs.default_order {env : Env} {run : List Ev} {o : Outcome}
    (h : Runs env exports.default run o) :
    ∀ t ∈ [TaskName.buildScripts, .lintScripts, .buildStyles, .buildSVGs, .svgSprite,
        .images, .copyFiles, .copyJSLibs],
      ∀ pre post, run = pre ++ Ev.start t :: post → Ev.finish .cleanDist .ok ∈ pre := by
  intro t ht pre post htr
  have hx : (Ev.start t).task ∉ (Comp.task .cleanDist).tasks := by
    simp only [Ev.task, Comp.tasks, List.mem_singleton]
    rintro rfl
    simp at ht
  obtain ⟨t1, mid, hpre, h1, _⟩ := Runs.series_before h htr hx
  rw [hpre]
  exact List.mem_append_left _ (h1.finish_of_ok rfl _ (by simp [Comp.tasks]))

/-- Claim C2. `exports.default` is the series of `cleanDist` and the parallel
group of exactly the eight build tasks. In every trace of it, each start of
one of the eight is preceded by the successful completion of `cleanDist`; and
a trace that ends in success contains the successful completion of all
eight. -/
theorem default_build_order (env : Env) (tr : List Ev) (o : Outcome)
    (h : Trace env exports.default tr o) :
    exports.default =
      .series [.task .cleanDist,
        .parallel ([TaskName.buildScripts, .lintScripts, .buildStyles, .buildSVGs, .svgSprite,
          .images, .copyFiles, .copyJSLibs].map Comp.task)] ∧
    (∀ t ∈ [TaskName.buildScripts, .lintScripts, .buildStyles, .buildSVGs, .svgSprite,
        .images, .copyFiles, .copyJSLibs],
      ∀ pre post, tr = pre ++ Ev.start t :: post → Ev.finish .cleanDist .ok ∈ pre) ∧
    (o = .ok →
      ∀ t ∈ [TaskName.buildScripts, .lintScripts, .buildStyles, .buildSVGs, .svgSprite,
        .images, .copyFiles, .copyJSLibs], Ev.finish t .ok ∈ tr) := by
  have hr := h.runs_ordered
  refine ⟨rfl, ?_, ?_⟩
  · intro t ht pre post htr
    exact mem_of_mem_ordered (hr.default_order t ht _ _ (ordered_split htr rfl))
  · intro ho t ht
    refine mem_of_mem_ordered (hr.finish_of_ok ho t ?_)
    simp only [exports.default, Comp.tasks, Comp.tasks.go]
    simp only [List.mem_cons, List.mem_singleton, List.not_mem_nil, or_false] at ht
    rcases ht with rfl | rfl | rfl | rfl | rfl | rfl | rfl | rfl <;> simp

/-- Claim C2 on the in-order trace of the demo project. -/
theorem default_build_order_witness :
    Trace demoEnv exports.default (traceInOrder demoEnv exports.default) .ok ∧
    (∀ t ∈ [TaskName.buildScripts, .lintScripts, .buildStyles, .buildSVGs, .svgSprite,
        .images, .copyFiles, .copyJSLibs],
      ∀ pre post, traceInOrder demoEnv exports.default = pre ++ Ev.start t :: post →
        Ev.finish .cleanDist .ok ∈ pre) :=
  ⟨Trace.settled demoEnv _,
    (default_build_order demoEnv _ .ok (Trace.settled demoEnv _)).2.1⟩

/-- In a run of watch mode, what precedes the start of `startServer` is a
complete successful run of the default build. -/
theorem Runs.watch_server_after_build {env : Env} {run : List Ev} {o : Outcome}
    (h : Runs env exports.watch run o) :
    ∀ pre post, run = pre ++ Ev.start .startServer :: post →
      Runs env exports.default pre .ok := by
  intro pre post htr
  have hx : (Ev.start .startServer).task ∉ exports.default.tasks := by
    simp [Ev.task, exports.default, Comp.tasks, Comp.tasks.go]
  obtain ⟨t1, mid, hpre, h1, h2⟩ := Runs.series_before h htr hx
  suffices hmid : mid = [] by
    subst hmid
    simpa [hpre] using h1
  cases mid with
  | nil => rfl
  | cons y mid =>
    exfalso
    have hin : Ev.start .startServer ∈ mid ++ Ev.start .startServer :: post := by simp
    rcases h2.series_cons_inv with ⟨a, b, hab, ha, hb⟩ | ⟨ha, _⟩
    · rcases ha.task_inv with ⟨_, hta⟩ | ⟨ho, _⟩
      · rw [hta] at hab
        simp only [List.cons_append, List.cons.injEq] at hab
        rw [hab.2] at hin
        simp only [List.append_assoc, List.mem_append, List.mem_map, List.mem_cons,
          List.mem_singleton, List.not_mem_nil, or_false, reduceCtorEq, and_false,
          exists_false, false_or] at hin
        have := (hb.event_sound _ hin).1
        simp [Ev.task, Comp.tasks, Comp.tasks.go] at this
      · cases ho
    · rcases ha.task_inv with ⟨ho, _⟩ | ⟨_, p, q, _, _, _, hta⟩
      · cases ho
      · simp only [List.cons_append, List.cons.injEq] at hta
        rw [hta.2] at hin
        simp at hin

/-- In a run of watch mode, every call of `watch` comes after the successful
completion of `startServer` and, with `reload` on, after `browserSync.init`. -/
theorem Runs.watch_arm_after_server {env : Env} {run : List Ev} {o : Outcome}
    (h : Runs env exports.watch run o) :
    ∀ globs handler pre post,
      run = pre ++ Ev.eff .watchSource (.watchArm globs handler) :: post →
        Ev.finish .startServer .ok ∈ pre ∧
        (env.settings.reload = true →
          Ev.eff .startServer (.bsInit paths.reload) ∈ pre) := by
  intro globs handler pre post htr
  have hx : (Ev.eff .watchSource (.watchArm globs handler)).task ∉ exports.default.tasks := by
    simp [Ev.task, exports.default, Comp.tasks, Comp.tasks.go]
  obtain ⟨t1, mid, hpre, _, h2⟩ := Runs.series_before h htr hx
  have hx2 : (Ev.eff .watchSource (.watchArm globs handler)).task ∉
      (Comp.task .startServer).tasks := by
    simp [Ev.task, Comp.tasks]
  obtain ⟨t2, mid2, hmid, h3, _⟩ := Runs.series_before h2 rfl hx2
  rcases h3.task_inv with ⟨_, ht2⟩ | ⟨ho, _⟩
  · subst hpre hmid ht2
    refine ⟨by simp, ?_⟩
    intro hr
    simp [body, startServer, hr]
  · cases ho

/-- Claim C3. `exports.watch` is the series of the default build, `startServer`
and `watchSource`. In every trace of it, the gulp-ordered events that precede
the start of `startServer` form a complete successful run of the default
build; every call of `watch` made by `watchSource` is preceded by the
successful completion of `startServer`, and, when the reload feature is on,
by the call of `browserSync.init`. -/
theorem watch_order (env : Env) (tr : List Ev) (o : Outcome)
    (h : Trace env exports.watch tr o) :
    exports.watch = .series [exports.default, .task .startServer, .task .watchSource] ∧
    (∀ pre post, tr = pre ++ Ev.start .startServer :: post →
      Runs env exports.default (ordered pre) .ok) ∧
    (∀ globs handler pre post,
      tr = pre ++ Ev.eff .watchSource (.watchArm globs handler) :: post →
        Ev.finish .startServer .ok ∈ pre ∧
        (env.settings.reload = true →
          Ev.eff .startServer (.bsInit paths.reload) ∈ pre)) := by
  have hr := h.runs_ordered
  refine ⟨rfl, ?_, ?_⟩
  · intro pre post htr
    exact hr.watch_server_after_build _ _ (ordered_split htr rfl)
  · intro globs handler pre post htr
    have := hr.watch_arm_after_server globs handler _ _ (ordered_split htr rfl)
    exact ⟨mem_of_mem_ordered this.1, fun hre => mem_of_mem_ordered (this.2 hre)⟩

/-- Claim C3 on the in-order trace of the demo project. -/
theorem watch_order_witness :
    Trace demoEnv exports.watch (traceInOrder demoEnv exports.watch) .ok ∧
    (∀ pre post, traceInOrder demoEnv exports.watch = pre ++ Ev.start .startServer :: post →
      Runs demoEnv exports.default (ordered pre) .ok) :=
  ⟨Trace.settled demoEnv _, (watch_order demoEnv _ .ok (Trace.settled demoEnv _)).2.1⟩


/-! ## The output folder -/

theorem FS.read_cons (fs : FS) (k v path : String) :
    FS.read ((k, v) :: fs) path = if k = path then some v else FS.read fs path := by
  unfold FS.read
  rw [List.find?_cons]
  by_cases hk : k = path
  · simp [hk]
  · have hb : (k == path) = false := by simpa using hk
    simp [hk, hb]

theorem FS.read_filter_keep (q : String × String → Bool) (path : String) :
    ∀ fs : FS, (∀ e ∈ fs, e.1 = path → q e = true) →
      FS.read (fs.filter q) path = FS.read fs path
  | [], _ => rfl
  | (k, v) :: fs, h => by
    have ih := FS.read_filter_keep q path fs fun e he => h e (List.mem_cons_of_mem _ he)
    by_cases hq : q (k, v) = true
    · rw [List.filter_cons_of_pos hq, FS.read_cons, FS.read_cons, ih]
    · have hk : k ≠ path := fun hk => hq (h (k, v) (List.mem_cons_self _ _) hk)
      rw [List.filter_cons_of_neg hq, FS.read_cons, if_neg hk, ih]

theorem FS.read_filter_drop (q : String × String → Bool) (path : String) :
    ∀ fs : FS, (∀ e ∈ fs, e.1 = path → q e = false) → FS.read (fs.filter q) path = none
  | [], _ => rfl
  | (k, v) :: fs, h => by
    have ih := FS.read_filter_drop q path fs fun e he => h e (List.mem_cons_of_mem _ he)
    by_cases hq : q (k, v) = true
    · have hk : k ≠ path := fun hk => by
        have := h (k, v) (List.mem_cons_self _ _) hk
        simp [hq] at this
      rw [List.filter_cons_of_pos hq, FS.read_cons, if_neg hk, ih]
    · rw [List.filter_cons_of_neg hq, ih]

theorem FS.read_filter_none (q : String × String → Bool) (path : String) :
    ∀ fs : FS, FS.read fs path = none → FS.read (fs.filter q) path = none
  | [], _ => rfl
  | (k, v) :: fs, h => by
    rw [FS.read_cons] at h
    by_cases hk : k = path
    · simp [hk] at h
    · rw [if_neg hk] at h
      have ih := FS.read_filter_none q path fs h
      by_cases hq : q (k, v) = true
      · rw [List.filter_cons_of_pos hq, FS.read_cons, if_neg hk, ih]
      · rw [List.filter_cons_of_neg hq, ih]

/-- A write to another path leaves the file at `path` as it was. -/
theorem FS.read_write_other (fs : FS) (dir : String) (f : File) (path : String)
    (h : dir ++ f.relative ≠ path) :
    FS.read (applyEffect fs (.write dir f)) path = FS.read fs path := by
  simp only [applyEffect]
  rw [FS.read_cons, if_neg h]
  apply FS.read_filter_keep
  intro e _ he
  have : e.1 ≠ dir ++ f.relative := fun h' => h (h'.symm.trans he)
  simp [this]

theorem applyEv_eq (fs : FS) (ev : Ev) :
    applyEv fs ev = match ev.effect with
      | some e => applyEffect fs e
      | none => fs := by
  cases ev <;> rfl

theorem writtenPaths_cons (ev : Ev) (tr : List Ev) :
    writtenPaths (ev :: tr) =
      match ev.effect with
      | some (.write dir f) => (dir ++ f.relative) :: writtenPaths tr
      | _ => writtenPaths tr := rfl

theorem writtenPaths_cons_subset (ev : Ev) (tr : List Ev) (path : String)
    (h : path ∉ writtenPaths (ev :: tr)) : path ∉ writtenPaths tr := by
  intro hm
  apply h
  rw [writtenPaths_cons]
  split
  · exact List.mem_cons_of_mem _ hm
  · exact hm

theorem writtenPaths_append_right (t1 t2 : List Ev) (path : String)
    (h : path ∉ writtenPaths (t1 ++ t2)) : path ∉ writtenPaths t2 := by
  induction t1 with
  | nil => simpa using h
  | cons ev t1 ih => exact ih (writtenPaths_cons_subset ev _ path h)

/-- An effect that is no write to `path` keeps the file at `path` absent. -/
theorem applyEffect_read_none (fs : FS) (e : Effect) (path : String)
    (h : FS.read fs path = none) (hw : e.writtenPath ≠ some path) :
    FS.read (applyEffect fs e) path = none := by
  cases e with
  | del patterns => exact FS.read_filter_none _ _ _ h
  | write dir f =>
    rw [FS.read_write_other fs dir f path (fun heq => hw (by simp [Effect.writtenPath, heq]))]
    exact h
  | _ => exact h

/-- An effect that is neither a deletion nor a write to `path` leaves the file
at `path` as it was. -/
theorem applyEffect_read_keep (fs : FS) (e : Effect) (path : String)
    (hd : e.isDel = false) (hw : e.writtenPath ≠ some path) :
    FS.read (applyEffect fs e) path = FS.read fs path := by
  cases e with
  | del patterns => simp [Effect.isDel] at hd
  | write dir f =>
    exact FS.read_write_other fs dir f path (fun heq => hw (by simp [Effect.writtenPath, heq]))
  | _ => rfl

theorem writtenPath_ne_of_not_mem (ev : Ev) (tr : List Ev) (path : String) (e : Effect)
    (he : ev.effect = some e) (h : path ∉ writtenPaths (ev :: tr)) :
    e.writtenPath ≠ some path := by
  intro hw
  apply h
  rw [writtenPaths_cons, he]
  cases e with
  | write dir f =>
    simp only [Effect.writtenPath, Option.some.injEq] at hw
    simp [hw]
  | _ => simp [Effect.writtenPath] at hw

/-- A file that does not exist and is not written does not exist afterwards. -/
theorem applyTrace_read_none (path : String) :
    ∀ (tr : List Ev) (fs : FS), FS.read fs path = none → path ∉ writtenPaths tr →
      FS.read (applyTrace fs tr) path = none
  | [], fs, h, _ => h
  | ev :: tr, fs, h, hw => by
    have hw' := writtenPaths_cons_subset ev tr path hw
    show FS.read (applyTrace (applyEv fs ev) tr) path = none
    apply applyTrace_read_none path tr _ _ hw'
    rw [applyEv_eq]
    cases he : ev.effect with
    | none => exact h
    | some e =>
      exact applyEffect_read_none fs e path h (writtenPath_ne_of_not_mem ev tr path e he hw)

/-- A trace without deletions leaves every file it does not write as it was. -/
theorem applyTrace_read_keep (path : String) :
    ∀ (tr : List Ev) (fs : FS), (∀ ev ∈ tr, ∀ e, ev.effect = some e → e.isDel = false) →
      path ∉ writtenPaths tr → FS.read (applyTrace fs tr) path = FS.read fs path
  | [], _, _, _ => rfl
  | ev :: tr, fs, hd, hw => by
    have hw' := writtenPaths_cons_subset ev tr path hw
    have hd' : ∀ ev' ∈ tr, ∀ e, ev'.effect = some e → e.isDel = false :=
      fun ev' he' => hd ev' (List.mem_cons_of_mem _ he')
    show FS.read (applyTrace (applyEv fs ev) tr) path = FS.read fs path
    rw [applyTrace_read_keep path tr _ hd' hw', applyEv_eq]
    cases he : ev.effect with
    | none => rfl
    | some e =>
      exact applyEffect_read_keep fs e path (hd ev (List.mem_cons_self _ _) e he)
        (writtenPath_ne_of_not_mem ev tr path e he hw)

/-- After a trace that deletes a directory, a file under it that the trace
does not write does not exist. -/
theorem applyTrace_read_deleted (fs : FS) (path : String) (dirs : List String)
    (a b : List Ev) (ev : Ev) (hev : ev.effect = some (.del dirs))
    (hunder : isUnder dirs path = true) (hw : path ∉ writtenPaths (a ++ ev :: b)) :
    FS.read (applyTrace fs (a ++ ev :: b)) path = none := by
  rw [applyTrace, List.foldl_append, List.foldl_cons]
  apply applyTrace_read_none path b
  · rw [applyEv_eq, hev]
    simp only [applyEffect]
    apply FS.read_filter_drop
    intro e _ he
    rw [he, hunder]
    rfl
  · exact writtenPaths_cons_subset ev b path (writtenPaths_append_right a _ path hw)

/-- Only `cleanDist` deletes, and only the output folder with `clean` on. -/
theorem del_only_cleanDist (env : Env) (t : TaskName) (e : Effect)
    (he : e ∈ body env t) (hd : e.isDel = true) :
    t = .cleanDist ∧ env.settings.clean = true ∧ e = .del [paths.output] := by
  rcases body_sound env t e he with rfl | h | ⟨_, rfl⟩ | ⟨_, rfl, _⟩ | ⟨_, rfl⟩ | ⟨_, _, rfl⟩ |
    ⟨_, _, rfl⟩ | ⟨_, _, _, rfl⟩ | ⟨_, _, _, rfl, _⟩
  · simp [Effect.isDel] at hd
  · exact h
  all_goals simp [Effect.isDel] at hd

theorem forkChain_not_del (globs : List String) (outputs : List Output) :
    ∀ e ∈ forkChain globs outputs, e.isDel = false := by
  intro e he
  simp only [forkChain, List.mem_cons, List.mem_map] at he
  rcases he with rfl | ⟨o, _, rfl⟩ <;> rfl

/-- A deletion in a trace is the deletion of the output folder by `cleanDist`,
with `clean` on. -/
theorem Trace.del_inv {env : Env} {c : Comp} {tr : List Ev} {o : Outcome}
    (h : Trace env c tr o) (ev : Ev) (hev : ev ∈ tr) (e : Effect)
    (he : ev.effect = some e) (hd : e.isDel = true) :
    ev = Ev.eff .cleanDist (.del [paths.output]) ∧ env.settings.clean = true ∧
      TaskName.cleanDist ∈ c.tasks := by
  have hs := h.effect_sound ev hev
  rcases hs.2 e he with ⟨hl, hb⟩ | ⟨_, globs, outputs, _, hc⟩
  · obtain ⟨ht, hc, rfl⟩ := del_only_cleanDist env _ e hb hd
    cases ev with
    | eff t e' =>
      simp only [Ev.effect, Option.some.injEq] at he
      simp only [Ev.task] at ht
      subst he ht
      exact ⟨rfl, hc, hs.1⟩
    | start t => simp [Ev.effect] at he
    | finish t o => simp [Ev.effect] at he
    | late t e' => simp [Ev.isLate] at hl
  · rw [forkChain_not_del globs outputs e hc] at hd
    cases hd

/-- A trace of a composite without `cleanDist` deletes nothing. -/
theorem Trace.no_del {env : Env} {c : Comp} {tr : List Ev} {o : Outcome}
    (h : Trace env c tr o) (hc : TaskName.cleanDist ∉ c.tasks) :
    ∀ ev ∈ tr, ∀ e, ev.effect = some e → e.isDel = false := by
  intro ev hev e he
  by_contra hdel
  exact hc (h.del_inv ev hev e he (by simpa using hdel)).2.2

/-- The three possible runs of `cleanDist` when `clean` is on: complete, failed
before the deletion, failed after it. -/
theorem cleanDist_runs {env : Env} {tr : List Ev} {o : Outcome}
    (hc : env.settings.clean = true) (h : Runs env (.task .cleanDist) tr o) :
    (o = .ok ∧ tr = [Ev.start .cleanDist, Ev.eff .cleanDist (.del [paths.output]),
      Ev.eff .cleanDist (.done none), Ev.finish .cleanDist .ok]) ∨
    (o = .err ∧ tr = [Ev.start .cleanDist, Ev.finish .cleanDist .err]) ∨
    (o = .err ∧ tr = [Ev.start .cleanDist, Ev.eff .cleanDist (.del [paths.output]),
      Ev.finish .cleanDist .err]) := by
  have hb : body env .cleanDist = [.del [paths.output], .done none] := by
    simp [body, cleanDist, hc]
  rcases h.task_inv with ⟨ho, htr⟩ | ⟨ho, pre, post, hpp, hw, _, htr⟩
  · exact Or.inl ⟨ho, by simpa [hb] using htr⟩
  · rw [hb] at hpp
    rcases pre with _ | ⟨a, _ | ⟨b, pre⟩⟩
    · exact Or.inr (Or.inl ⟨ho, by simpa using htr⟩)
    · simp only [List.cons_append, List.nil_append, List.cons.injEq] at hpp
      refine Or.inr (Or.inr ⟨ho, ?_⟩)
      rw [htr, ← hpp.1]
      rfl
    · exfalso
      simp only [List.cons_append, List.cons.injEq] at hpp
      have := hw b (by simp)
      rw [← hpp.2.1] at this
      simp [Effect.isWork] at this

/-- In a run of the default build with `clean` on, only the start of
`cleanDist` precedes the deletion, and a run in which `cleanDist` completed
contains the deletion. -/
theorem Runs.default_del {env : Env} {run : List Ev} {o : Outcome}
    (h : Runs env exports.default run o) (hc : env.settings.clean = true) :
    (∀ pre post, run = pre ++ Ev.eff .cleanDist (.del [paths.output]) :: post →
      pre = [Ev.start .cleanDist]) ∧
    (Ev.finish .cleanDist .ok ∈ run → Ev.eff .cleanDist (.del [paths.output]) ∈ run) := by
  have hrest : ∀ {t2 : List Ev} {o2 : Outcome} {x : Ev},
      Runs env (.series [.parallel [.task .buildScripts, .task .lintScripts,
        .task .buildStyles, .task .buildSVGs, .task .svgSprite, .task .images,
        .task .copyFiles, .task .copyJSLibs]]) t2 o2 → x.task = .cleanDist → x ∉ t2 := by
    intro t2 o2 x h2 hx hm
    have := (h2.event_sound x hm).1
    rw [hx] at this
    simp [Comp.tasks, Comp.tasks.go] at this
  constructor
  · intro pre post htr
    have hin : Ev.eff .cleanDist (.del [paths.output]) ∈ run := by rw [htr]; simp
    rcases h.series_cons_inv with ⟨t1, t2, h12, h1, h2⟩ | ⟨h1, _⟩
    · rcases cleanDist_runs hc h1 with ⟨_, ht1⟩ | ⟨ho, _⟩ | ⟨ho, _⟩
      · have hx := @hrest _ _ (Ev.eff .cleanDist (.del [paths.output])) h2 rfl
        rw [h12, ht1] at htr
        rcases pre with _ | ⟨a, _ | ⟨b, _ | ⟨c, _ | ⟨d, pre⟩⟩⟩⟩
        · simp at htr
        · simp only [List.cons_append, List.nil_append, List.cons.injEq] at htr
          rw [← htr.1]
        · simp at htr
        · simp at htr
        · exfalso
          simp only [List.cons_append, List.nil_append, List.cons.injEq] at htr
          apply hx
          rw [htr.2.2.2.2]
          simp
      · cases ho
      · cases ho
    · rcases cleanDist_runs hc h1 with ⟨ho, _⟩ | ⟨_, ht1⟩ | ⟨_, ht1⟩
      · cases ho
      · rw [ht1] at hin
        simp at hin
      · rw [ht1] at htr
        rcases pre with _ | ⟨a, _ | ⟨b, _ | ⟨c, pre⟩⟩⟩
        · simp at htr
        · simp only [List.cons_append, List.nil_append, List.cons.injEq] at htr
          rw [← htr.1]
        · simp at htr
        · simp at htr
  · intro hfin
    rcases h.series_cons_inv with ⟨t1, t2, h12, h1, h2⟩ | ⟨h1, _⟩
    · rcases cleanDist_runs hc h1 with ⟨_, ht1⟩ | ⟨ho, _⟩ | ⟨ho, _⟩
      · rw [h12, ht1]
        simp
      · cases ho
      · cases ho
    · rcases cleanDist_runs hc h1 with ⟨ho, _⟩ | ⟨_, ht1⟩ | ⟨_, ht1⟩
      · cases ho
      · rw [ht1] at hfin
        simp at hfin
      · rw [ht1] at hfin
        simp at hfin

/-- Claim C4. Only `cleanDist` deletes, it deletes `paths.output` and only
when `clean` is on. In every trace of the default build a deletion is the
very first effect: it is the one of `cleanDist` and only the start of
`cleanDist` precedes it. For a file under the output folder that the build
does not write: with `clean` on it is gone after every trace in which
`cleanDist` completed, with `clean` off it is unchanged after every trace.
The five handlers armed by `watchSource` are the composites `scripts`,
`copyJSLibs`, `styles`, `assets`, `copyFiles`, each followed by
`reloadBrowser`; none contains `cleanDist` and no trace of them deletes. -/
theorem clean_only_at_start (env : Env) (fs : FS) (stale : String) (tr : List Ev)
    (o : Outcome) (h : Trace env exports.default tr o)
    (hunder : isUnder [paths.output] stale = true)
    (hunrelated : stale ∉ writtenPaths tr) :
    (∀ t e, e ∈ body env t → e.isDel = true →
      t = .cleanDist ∧ env.settings.clean = true ∧ e = .del [paths.output]) ∧
    (∀ pre post ev e, tr = pre ++ ev :: post → ev.effect = some e → e.isDel = true →
      ev = Ev.eff .cleanDist (.del [paths.output]) ∧ pre = [Ev.start .cleanDist]) ∧
    (env.settings.clean = true → Ev.finish .cleanDist .ok ∈ tr →
      FS.read (applyTrace fs tr) stale = none) ∧
    (env.settings.clean = false → FS.read (applyTrace fs tr) stale = FS.read fs stale) ∧
    watchBindings.map Binding.handler =
      [ .series [exports.scripts, .task .reloadBrowser],
        .series [exports.copyJSLibs, .task .reloadBrowser],
        .series [exports.styles, .task .reloadBrowser],
        .series [exports.assets, .task .reloadBrowser],
        .series [exports.copyFiles, .task .reloadBrowser] ] ∧
    (∀ b ∈ watchBindings, TaskName.cleanDist ∉ b.handler.tasks ∧
      ∀ tr' o', Trace env b.handler tr' o' →
        ∀ ev ∈ tr', ∀ e, ev.effect = some e → e.isDel = false) := by
  have hr := h.runs_ordered
  refine ⟨del_only_cleanDist env, ?_, ?_, ?_, rfl, ?_⟩
  · intro pre post ev e htr hev hdel
    have hin : ev ∈ tr := by rw [htr]; simp
    obtain ⟨rfl, hc, _⟩ := h.del_inv ev hin e hev hdel
    refine ⟨rfl, ?_⟩
    have hpre := (hr.default_del hc).1 _ _ (ordered_split htr rfl)
    have hnl : ∀ x ∈ pre, x.isLate = false := by
      intro x hx
      cases x with
      | late t' e' =>
        exfalso
        obtain ⟨a, b, hab⟩ := List.append_of_mem hx
        have htr' : tr = a ++ Ev.late t' e' :: (b ++ Ev.eff .cleanDist (.del [paths.output]) ::
            post) := by
          rw [htr, hab]
          simp
        rcases h.scatter_ordered.late_after_fork hr.not_late a _ t' e' htr' with
          ⟨es, hp, _⟩ | ⟨z, hz, hzl, es, hf, _⟩
        · simp at hp
        · have hzo : z ∈ ordered pre := mem_ordered (by rw [hab]; simp [hz]) hzl
          rw [hpre, List.mem_singleton] at hzo
          subst hzo
          simp [Ev.forks] at hf
      | _ => rfl
    have : ordered pre = pre := List.filter_eq_self.2 fun x hx => by simp [hnl x hx]
    rw [← this, hpre]
  · intro hc hfin
    have hdel := (hr.default_del hc).2 (mem_ordered hfin rfl)
    obtain ⟨a, b, hab⟩ := List.append_of_mem (mem_of_mem_ordered hdel)
    rw [hab]
    exact applyTrace_read_deleted fs stale [paths.output] a b _ rfl hunder (hab ▸ hunrelated)
  · intro hc
    apply applyTrace_read_keep stale tr fs _ hunrelated
    intro ev hev e he
    by_contra hdel
    have := (h.del_inv ev hev e he (by simpa using hdel)).2.1
    rw [hc] at this
    cases this
  · intro b hb
    have hnot : TaskName.cleanDist ∉ b.handler.tasks := by
      simp only [watchBindings, List.mem_cons, List.mem_singleton, List.not_mem_nil,
        or_false] at hb
      rcases hb with rfl | rfl | rfl | rfl | rfl <;>
        simp [Comp.tasks, Comp.tasks.go, exports.scripts, exports.copyJSLibs, exports.styles,
          exports.assets, exports.copyFiles]
    exact ⟨hnot, fun tr' o' ht => ht.no_del hnot⟩

/-- Claim C4 on the demo project: with `clean` on the stale file is gone after
the in-order trace of the default build, with `clean` off it is still there. -/
theorem clean_only_at_start_witness :
    Trace demoEnv exports.default (traceInOrder demoEnv exports.default) .ok ∧
    isUnder [paths.output] "dist/old.txt" = true ∧
    "dist/old.txt" ∉ writtenPaths (traceInOrder demoEnv exports.default) ∧
    FS.read staleFS "dist/old.txt" = some "stale" ∧
    FS.read (applyTrace staleFS (traceInOrder demoEnv exports.default)) "dist/old.txt" = none ∧
    FS.read (applyTrace staleFS (traceInOrder demoEnvNoClean exports.default)) "dist/old.txt" =
      some "stale" :=
  ⟨Trace.settled demoEnv _, by decide, by decide, by decide,
    (clean_only_at_start demoEnv staleFS "dist/old.txt" _ .ok (Trace.settled demoEnv _)
      (by decide) (by decide)).2.2.1 rfl
      (mem_of_mem_ordered
        ((Trace.settled demoEnv exports.default).runs_ordered.finish_of_ok rfl _ (by decide))),
    (clean_only_at_start demoEnvNoClean staleFS "dist/old.txt" _ .ok
      (Trace.settled demoEnvNoClean _) (by decide) (by decide)).2.2.2.1 rfl⟩


/-! ## Chains that run to their end -/

theorem Settle.toScatter {pending : List (TaskName × List Effect)} {run tr : List Ev}
    (h : Settle pending run tr) : Scatter pending run tr := by
  induction h with
  | nil p _ => exact Scatter.nil p
  | step x _ ih => exact Scatter.step x ih
  | late t e es _ ih => exact Scatter.late t e es ih

/-- A trace in which every chain runs to its end is a trace. -/
theorem CompleteTrace.toTrace {env : Env} {c : Comp} {tr : List Ev} {o : Outcome}
    (h : CompleteTrace env c tr o) : Trace env c tr o := by
  obtain ⟨run, hr, hs⟩ := h
  exact ⟨run, hr, hs.toScatter⟩

/-- When no chain is cut short, every effect of every pending chain and of
every chain forked in the run occurs in the trace. -/
theorem Settle.late_mem {pending : List (TaskName × List Effect)} {run tr : List Ev}
    (h : Settle pending run tr) :
    (∀ p ∈ pending, ∀ e ∈ p.2, Ev.late p.1 e ∈ tr) ∧
    (∀ x ∈ run, ∀ p ∈ x.forks, ∀ e ∈ p.2, Ev.late p.1 e ∈ tr) := by
  induction h with
  | nil pending hp =>
    refine ⟨fun p hpm e he => ?_, fun x hx => ?_⟩
    · rw [hp p hpm] at he
      simp at he
    · simp at hx
  | @step x pending run tr _ ih =>
    refine ⟨fun p hp e he => ?_, fun y hy p hp e he => ?_⟩
    · exact List.mem_cons_of_mem _ (ih.1 p (List.mem_append_left _ hp) e he)
    · rcases List.mem_cons.1 hy with rfl | hy
      · exact List.mem_cons_of_mem _ (ih.1 p (List.mem_append_right _ hp) e he)
      · exact List.mem_cons_of_mem _ (ih.2 y hy p hp e he)
  | @late t e0 es before after run tr _ ih =>
    refine ⟨fun p hp e he => ?_, fun y hy p hp e he => ?_⟩
    · simp only [List.mem_append, List.mem_cons] at hp
      rcases hp with hp | rfl | hp
      · exact List.mem_cons_of_mem _ (ih.1 p (by simp [hp]) e he)
      · rcases List.mem_cons.1 he with rfl | he
        · exact List.mem_cons_self _ _
        · exact List.mem_cons_of_mem _ (ih.1 (t, es) (by simp) e he)
      · exact List.mem_cons_of_mem _ (ih.1 p (by simp [hp]) e he)
    · exact List.mem_cons_of_mem _ (ih.2 y hy p hp e he)

theorem Settle.run_chain {t : TaskName} {pending : List (TaskName × List Effect)}
    {run tr : List Ev} :
    ∀ es : List Effect, Settle (pending ++ [(t, [])]) run tr →
      Settle (pending ++ [(t, es)]) run (es.map (Ev.late t) ++ tr)
  | [], h => h
  | e :: es, h => Settle.late t e es (Settle.run_chain es h)

/-- Letting every forked chain run at once leaves no chain cut short. -/
theorem Settle.settle_run :
    ∀ (run : List Ev) (pending : List (TaskName × List Effect)),
      (∀ p ∈ pending, p.2 = []) → Settle pending run (settle run)
  | [], pending, hp => Settle.nil pending hp
  | x :: run, pending, hp => by
    have hp0 : ∀ p ∈ pending ++ [], p.2 = [] := by simpa using hp
    cases x with
    | start t => exact Settle.step _ (Settle.settle_run run _ hp0)
    | finish t o => exact Settle.step _ (Settle.settle_run run _ hp0)
    | late t e => exact Settle.step _ (Settle.settle_run run _ hp0)
    | eff t e =>
      cases e with
      | fork globs outputs =>
        refine Settle.step _ (Settle.run_chain _ (Settle.settle_run run _ ?_))
        intro p hpm
        rcases List.mem_append.1 hpm with h | h
        · exact hp p h
        · rw [List.mem_singleton] at h
          rw [h]
      | _ => exact Settle.step _ (Settle.settle_run run _ hp0)

/-- The in-order trace of a composite is one in which every forked chain runs
to its end. -/
theorem CompleteTrace.of_inOrder (env : Env) (c : Comp) :
    CompleteTrace env c (traceInOrder env c) .ok :=
  ⟨runInOrder env c, Runs.inOrder env c, Settle.settle_run _ _ (by simp)⟩

/-- A run that contains the successful completion of a task function contains
every effect of its body. -/
theorem Runs.body_of_finish {env : Env} {c : Comp} {run : List Ev} {o : Outcome}
    (h : Runs env c run o) :
    ∀ t, Ev.finish t .ok ∈ run → ∀ e ∈ body env t, Ev.eff t e ∈ run := by
  induction h with
  | taskOk t0 =>
    intro t hfin e he
    simp only [List.cons_append, List.mem_cons, List.mem_append, List.mem_map,
      List.mem_singleton, List.not_mem_nil, or_false, reduceCtorEq, and_false, exists_false,
      false_or, Ev.finish.injEq, and_true] at hfin
    subst hfin
    simp [he]
  | taskErr t0 pre post _ _ _ =>
    intro t hfin
    simp at hfin
  | seriesNil => simp
  | seriesOk _ _ ih1 ih2 =>
    intro t hfin e he
    rcases List.mem_append.1 hfin with h1 | h2
    · exact List.mem_append_left _ (ih1 t h1 e he)
    · exact List.mem_append_right _ (ih2 t h2 e he)
  | seriesErr _ ih => exact ih
  | parallelNil => simp
  | parallelCons _ _ hi ih1 ih2 =>
    intro t hfin e he
    rcases (hi.mem_iff _).1 hfin with h1 | h2
    · exact (hi.mem_iff _).2 (Or.inl (ih1 t h1 e he))
    · exact (hi.mem_iff _).2 (Or.inr (ih2 t h2 e he))

/-- In a trace in which every chain runs to its end and a task function
completed, every chain this task function forks performs all its effects. -/
theorem CompleteTrace.chain_runs {env : Env} {c : Comp} {tr : List Ev} {o : Outcome}
    (h : CompleteTrace env c tr o) (t : TaskName) (hfin : Ev.finish t .ok ∈ tr)
    (globs : List String) (outputs : List Output)
    (hf : Effect.fork globs outputs ∈ body env t) :
    ∀ e ∈ forkChain globs outputs, Ev.late t e ∈ tr := by
  obtain ⟨run, hr, hs⟩ := h
  have hord : ordered tr = run := hs.toScatter.ordered_eq hr.not_late
  have hfin' : Ev.finish t .ok ∈ run := hord ▸ mem_ordered hfin rfl
  have hfork := hr.body_of_finish t hfin' _ hf
  intro e he
  exact hs.late_mem.2 _ hfork (t, forkChain globs outputs) (by simp [Ev.forks]) e he

/-- A path written in a trace is written by one of its events. -/
theorem mem_writtenPaths {path : String} :
    ∀ {tr : List Ev}, path ∈ writtenPaths tr →
      ∃ ev ∈ tr, ∃ dir f, ev.effect = some (.write dir f) ∧ path = dir ++ f.relative
  | [], h => by simp [writtenPaths] at h
  | ev :: tr, h => by
    rw [writtenPaths_cons] at h
    split at h
    · next dir f heq =>
      rcases List.mem_cons.1 h with rfl | h'
      · exact ⟨ev, List.mem_cons_self _ _, dir, f, heq, rfl⟩
      · obtain ⟨ev', hev', r⟩ := mem_writtenPaths h'
        exact ⟨ev', List.mem_cons_of_mem _ hev', r⟩
    · obtain ⟨ev', hev', r⟩ := mem_writtenPaths h
      exact ⟨ev', List.mem_cons_of_mem _ hev', r⟩

/-- A trace that ends in success contains the successful completion of every
task function of the composite. -/
theorem Trace.finish_mem {env : Env} {c : Comp} {tr : List Ev}
    (h : Trace env c tr .ok) : ∀ t ∈ c.tasks, Ev.finish t .ok ∈ tr :=
  fun t ht => mem_of_mem_ordered (h.runs_ordered.finish_of_ok rfl t ht)


/-! ## Script bundles -/

theorem concatFiles_of_ne_nil (name : String) (fs : List File) (h : fs ≠ []) :
    concatFiles name fs =
      [{ relative := name, contents := String.intercalate "\n" (fs.map File.contents) }] := by
  cases fs with
  | nil => exact absurd rfl h
  | cons f fs => simp [concatFiles]

/-- For a directory path without glob syntax, the glob `<path>/*.js` yields
the `*.js` files of the directory. -/
theorem allScripts_plain (env : Env) (path : String) (children : List File)
    (h : plainPath path = true) :
    allScripts env path children = children.filter (fun f => globStarJs f.relative) := by
  simp [allScripts, h]

/-- For a directory path without glob syntax, the globs `<path>/*.js`,
`!<path>/*.polyfill.js` yield the `*.js` files of the directory whose names
do not end in `.polyfill.js`. -/
theorem mainScripts_plain (env : Env) (path : String) (children : List File)
    (h : plainPath path = true) :
    mainScripts env path children =
      children.filter (fun f => globStarJs f.relative && !endsWith f.relative ".polyfill.js") := by
  simp only [mainScripts, h, if_true, List.filter_filter]
  congr 1
  funext f
  rw [Bool.and_comm]
  rfl

theorem allScripts_ne_nil (env : Env) (path : String) (children : List File)
    (hplain : plainPath path = true) (h : mainScripts env path children ≠ []) :
    allScripts env path children ≠ [] := by
  intro h0
  apply h
  rw [allScripts_plain env path children hplain] at h0
  simp [mainScripts, hplain, h0]

/-- Every effect of the flatmap callback on an entry of `src/js/*` is an effect
of `buildScripts`. -/
theorem scriptEntry_subset (env : Env) (entry : ScriptEntry)
    (hs : env.settings.scripts = true) (hd : entry ∈ env.project.scripts) :
    ∀ e ∈ scriptEntry env entry, e ∈ buildScripts env := by
  intro e he
  simp only [buildScripts, hs, Bool.not_true, Bool.false_eq_true, if_false, List.mem_cons,
    List.mem_flatten, List.mem_map]
  exact Or.inr ⟨_, ⟨entry, hd, rfl⟩, he⟩

/-- A script directory whose path holds glob syntax: the globs built from the
path are not the directory's own listing, and where they match nothing no
bundle is written for the directory although it holds scripts. -/
theorem bracket_dir_no_bundle :
    plainPath "src/js/lib[1]" = false ∧
    buildScripts bracketEnv =
      [ .read ["src/js/*"],
        .fork ["src/js/lib[1]/*.js", "!src/js/lib[1]/*.polyfill.js"] [],
        .fork ["src/js/lib[1]/*.js"] [] ] ∧
    writtenPaths (traceInOrder bracketEnv (.task .buildScripts)) = [] :=
  ⟨by decide, rfl, by decide⟩

/-- Claim C5, against it: a script directory whose only file is
`a.polyfill.js`, with `scripts` and `polyfills` on and no glob syntax in the
directory's path, gets no bundle `main.js`: the chain forked for the main
bundle has nothing to write. The in-order trace of `buildScripts`, in which
the task completes and every chain runs to its end, writes the polyfills
bundle alone, and no trace of `buildScripts` writes `dist/js/main.js`. -/
theorem polyfill_only_dir_single_bundle :
    polyfillOnlyEnv.settings.scripts = true ∧ polyfillOnlyEnv.settings.polyfills = true ∧
    polyfillOnlyEnv.project.scripts =
      [.dir "src/js/main" "main" [{ relative := "a.polyfill.js", contents := "P" }]] ∧
    plainPath "src/js/main" = true ∧
    buildScripts polyfillOnlyEnv =
      [ .read ["src/js/*"],
        .fork ["src/js/main/*.js", "!src/js/main/*.polyfill.js"] [],
        .fork ["src/js/main/*.js"]
          [ { dir := "dist/js/",
              file :=
                { relative := "main.polyfills.js",
                  contents := "/*! demo v1.0.0 | (c) 2026 Ann | MIT License | http://example.org/demo */\nP" } },
            { dir := "dist/js/",
              file :=
                { relative := "main.polyfills.min.js",
                  contents := "/*! demo v1.0.0 | (c) 2026 Ann | MIT License | http://example.org/demo */\nmin:/*! demo v1.0.0 | (c) 2026 Ann | MIT License | http://example.org/demo */\nP" } } ] ] ∧
    CompleteTrace polyfillOnlyEnv (.task .buildScripts)
      (traceInOrder polyfillOnlyEnv (.task .buildScripts)) .ok ∧
    Ev.finish .buildScripts .ok ∈ traceInOrder polyfillOnlyEnv (.task .buildScripts) ∧
    writtenPaths (traceInOrder polyfillOnlyEnv (.task .buildScripts)) =
      ["dist/js/main.polyfills.js", "dist/js/main.polyfills.min.js"] ∧
    (∀ tr o, Trace polyfillOnlyEnv (.task .buildScripts) tr o →
      "dist/js/main.js" ∉ writtenPaths tr) := by
  refine ⟨rfl, rfl, rfl, by decide, rfl, CompleteTrace.of_inOrder _ _, ?_, by decide, ?_⟩
  · exact (Trace.settled _ _).finish_mem _ (by simp [Comp.tasks])
  · intro tr o h hm
    obtain ⟨ev, hev, dir, f, heff, hpath⟩ := mem_writtenPaths hm
    obtain ⟨htask, hsound⟩ := h.effect_sound ev hev
    simp only [Comp.tasks, List.mem_singleton] at htask
    have hb : body polyfillOnlyEnv ev.task =
        [ .read ["src/js/*"],
          .fork ["src/js/main/*.js", "!src/js/main/*.polyfill.js"] [],
          .fork ["src/js/main/*.js"]
            [ { dir := "dist/js/",
                file :=
                  { relative := "main.polyfills.js",
                    contents := "/*! demo v1.0.0 | (c) 2026 Ann | MIT License | http://example.org/demo */\nP" } },
              { dir := "dist/js/",
                file :=
                  { relative := "main.polyfills.min.js",
                    contents := "/*! demo v1.0.0 | (c) 2026 Ann | MIT License | http://example.org/demo */\nmin:/*! demo v1.0.0 | (c) 2026 Ann | MIT License | http://example.org/demo */\nP" } } ] ] := by
      rw [htask]; rfl
    rcases hsound _ heff with ⟨_, hin⟩ | ⟨_, globs, outputs, hfork, hin⟩
    · rw [hb] at hin
      simp at hin
    · rw [hb] at hfork
      simp only [List.mem_cons, reduceCtorEq, Effect.fork.injEq, List.mem_singleton,
        List.not_mem_nil, or_false, false_or] at hfork
      rcases hfork with ⟨_, rfl⟩ | ⟨_, rfl⟩
      · simp [forkChain] at hin
      · simp only [forkChain, List.map_cons, List.map_nil, List.mem_cons, reduceCtorEq,
          Effect.write.injEq, List.not_mem_nil, or_false, false_or] at hin
        rcases hin with ⟨rfl, rfl⟩ | ⟨rfl, rfl⟩
        · revert hpath; decide
        · revert hpath; decide


/-- Claim C5, amended. With `polyfills` on, for a script directory whose path
holds no glob syntax and that holds at least one `*.js` file whose name does
not end in `.polyfill.js`, the flatmap callback of `buildScripts` forks
exactly two chains, each sending one bundle on its own through `jsTasks` (two
writes per bundle): `<dir>.js`, the newline-joined contents of the `*.js`
files that do not end in `.polyfill.js`, and `<dir>.polyfills.js`, the
newline-joined contents of all `*.js` files. With `scripts` on and the
directory among the entries of `src/js/*`, both forks are part of
`buildScripts`, and in every trace in which `buildScripts` completes and
every forked chain runs to its end, the four bundle files are written; the
in-order trace of the default build is such a trace. Nothing else is done on
behalf of `buildScripts` outside its body than the effects of the chains it
forks. -/
theorem dir_bundles (env : Env) (path relative : String) (children : List File)
    (hp : env.settings.polyfills = true) (hplain : plainPath path = true)
    (hmain : mainScripts env path children ≠ []) :
    mainScripts env path children =
      children.filter (fun f => globStarJs f.relative && !endsWith f.relative ".polyfill.js") ∧
    allScripts env path children = children.filter (fun f => globStarJs f.relative) ∧
    scriptEntry env (.dir path relative children) =
      [ .fork [path ++ "/*.js", "!" ++ path ++ "/*" ++ ".polyfill.js"]
          (pipeOutputs env.plugins (jsTasks env)
            [{ relative := relative ++ ".js",
               contents :=
                 String.intercalate "\n"
                   ((mainScripts env path children).map File.contents) }]),
        .fork [path ++ "/*.js"]
          (pipeOutputs env.plugins (jsTasks env)
            [{ relative := relative ++ ".polyfills" ++ ".js",
               contents :=
                 String.intercalate "\n"
                   ((allScripts env path children).map File.contents) }]) ] ∧
    pipeOutputs env.plugins (jsTasks env)
        [{ relative := relative ++ ".js",
           contents :=
             String.intercalate "\n" ((mainScripts env path children).map File.contents) }] =
      [ { dir := paths.scripts.output,
          file :=
            { relative := relative ++ ".js",
              contents := env.plugins.optimizejs (bannerMain env.year env.pkg ++
                String.intercalate "\n"
                  ((mainScripts env path children).map File.contents)) } },
        { dir := paths.scripts.output,
          file :=
            { relative := renameSuffix ".min" (relative ++ ".js"),
              contents := bannerMain env.year env.pkg ++
                env.plugins.optimizejs (env.plugins.uglify (env.plugins.optimizejs
                  (bannerMain env.year env.pkg ++
                    String.intercalate "\n"
                      ((mainScripts env path children).map File.contents)))) } } ] ∧
    pipeOutputs env.plugins (jsTasks env)
        [{ relative := relative ++ ".polyfills" ++ ".js",
           contents :=
             String.intercalate "\n" ((allScripts env path children).map File.contents) }] =
      [ { dir := paths.scripts.output,
          file :=
            { relative := relative ++ ".polyfills" ++ ".js",
              contents := env.plugins.optimizejs (bannerMain env.year env.pkg ++
                String.intercalate "\n"
                  ((allScripts env path children).map File.contents)) } },
        { dir := paths.scripts.output,
          file :=
            { relative := renameSuffix ".min" (relative ++ ".polyfills" ++ ".js"),
              contents := bannerMain env.year env.pkg ++
                env.plugins.optimizejs (env.plugins.uglify (env.plugins.optimizejs
                  (bannerMain env.year env.pkg ++
                    String.intercalate "\n"
                      ((allScripts env path children).map File.contents)))) } } ] ∧
    (env.settings.scripts = true → ScriptEntry.dir path relative children ∈ env.project.scripts →
      (∀ e ∈ scriptEntry env (.dir path relative children), e ∈ buildScripts env) ∧
      (∀ (c : Comp) (tr : List Ev) (o : Outcome), CompleteTrace env c tr o →
        Ev.finish .buildScripts .ok ∈ tr →
        Ev.late .buildScripts
            (.write paths.scripts.output
              { relative := relative ++ ".js",
                contents := env.plugins.optimizejs (bannerMain env.year env.pkg ++
                  String.intercalate "\n"
                    ((mainScripts env path children).map File.contents)) }) ∈ tr ∧
        Ev.late .buildScripts
            (.write paths.scripts.output
              { relative := renameSuffix ".min" (relative ++ ".js"),
                contents := bannerMain env.year env.pkg ++
                  env.plugins.optimizejs (env.plugins.uglify (env.plugins.optimizejs
                    (bannerMain env.year env.pkg ++
                      String.intercalate "\n"
                        ((mainScripts env path children).map File.contents)))) }) ∈ tr ∧
        Ev.late .buildScripts
            (.write paths.scripts.output
              { relative := relative ++ ".polyfills" ++ ".js",
                contents := env.plugins.optimizejs (bannerMain env.year env.pkg ++
                  String.intercalate "\n"
                    ((allScripts env path children).map File.contents)) }) ∈ tr ∧
        Ev.late .buildScripts
            (.write paths.scripts.output
              { relative := renameSuffix ".min" (relative ++ ".polyfills" ++ ".js"),
                contents := bannerMain env.year env.pkg ++
                  env.plugins.optimizejs (env.plugins.uglify (env.plugins.optimizejs
                    (bannerMain env.year env.pkg ++
                      String.intercalate "\n"
                        ((allScripts env path children).map File.contents)))) }) ∈ tr) ∧
      CompleteTrace env exports.default (traceInOrder env exports.default) .ok ∧
      Ev.finish .buildScripts .ok ∈ traceInOrder env exports.default) ∧
    (∀ (c : Comp) (tr : List Ev) (o : Outcome), Trace env c tr o →
      ∀ e, Ev.late .buildScripts e ∈ tr →
        ∃ globs outputs, Effect.fork globs outputs ∈ buildScripts env ∧
          e ∈ forkChain globs outputs) := by
  have hentry : scriptEntry env (.dir path relative children) =
      [ .fork [path ++ "/*.js", "!" ++ path ++ "/*" ++ ".polyfill.js"]
          (pipeOutputs env.plugins (jsTasks env)
            [{ relative := relative ++ ".js",
               contents :=
                 String.intercalate "\n"
                   ((mainScripts env path children).map File.contents) }]),
        .fork [path ++ "/*.js"]
          (pipeOutputs env.plugins (jsTasks env)
            [{ relative := relative ++ ".polyfills" ++ ".js",
               contents :=
                 String.intercalate "\n"
                   ((allScripts env path children).map File.contents) }]) ] := by
    simp only [scriptEntry, hp, if_true, pipeOutputs_concat,
      concatFiles_of_ne_nil _ _ hmain,
      concatFiles_of_ne_nil _ _ (allScripts_ne_nil env path children hplain hmain)]
    rfl
  refine ⟨mainScripts_plain env path children hplain,
    allScripts_plain env path children hplain, hentry, jsTasks_outputs env _,
    jsTasks_outputs env _, fun hs hd => ⟨scriptEntry_subset env _ hs hd, ?_, ?_, ?_⟩, ?_⟩
  · intro c tr o hc hfin
    have hsub := scriptEntry_subset env _ hs hd
    rw [hentry] at hsub
    have h1 := hc.chain_runs .buildScripts hfin _ _ (hsub _ (List.mem_cons_self _ _))
    have h2 := hc.chain_runs .buildScripts hfin _ _
      (hsub _ (List.mem_cons_of_mem _ (List.mem_cons_self _ _)))
    rw [jsTasks_outputs] at h1 h2
    exact ⟨h1 _ (by simp [forkChain]), h1 _ (by simp [forkChain]),
      h2 _ (by simp [forkChain]), h2 _ (by simp [forkChain])⟩
  · exact CompleteTrace.of_inOrder _ _
  · exact (Trace.settled env exports.default).finish_mem _ (by simp [exports.default, Comp.tasks, Comp.tasks.go])
  · intro c tr o h e he
    rcases (h.effect_sound _ he).2 e rfl with ⟨hl, _⟩ | ⟨_, globs, outputs, hf, hin⟩
    · cases hl
    · exact ⟨globs, outputs, hf, hin⟩


/-- Claim C5 (amended) on the script directory of the demo project, which
holds `x.js`, `y.js` and `y.polyfill.js`: the two forks and, in the in-order
trace of the default build, the four writes of the two bundles. -/
theorem dir_bundles_witness :
    demoEnv.settings.polyfills = true ∧ plainPath "src/js/main" = true ∧
    mainScripts demoEnv "src/js/main"
        [{ relative := "x.js", contents := "X" }, { relative := "y.js", contents := "Y" },
          { relative := "y.polyfill.js", contents := "P" }] =
      [{ relative := "x.js", contents := "X" }, { relative := "y.js", contents := "Y" }] ∧
    scriptEntry demoEnv (.dir "src/js/main" "main"
        [{ relative := "x.js", contents := "X" }, { relative := "y.js", contents := "Y" },
          { relative := "y.polyfill.js", contents := "P" }]) =
      [ .fork ["src/js/main/*.js", "!src/js/main/*.polyfill.js"]
          [ { dir := "dist/js/",
              file :=
                { relative := "main.js",
                  contents := "/*! demo v1.0.0 | (c) 2026 Ann | MIT License | http://example.org/demo */\nX\nY" } },
            { dir := "dist/js/",
              file :=
                { relative := "main.min.js",
                  contents := "/*! demo v1.0.0 | (c) 2026 Ann | MIT License | http://example.org/demo */\nmin:/*! demo v1.0.0 | (c) 2026 Ann | MIT License | http://example.org/demo */\nX\nY" } } ],
        .fork ["src/js/main/*.js"]
          [ { dir := "dist/js/",
              file :=
                { relative := "main.polyfills.js",
                  contents := "/*! demo v1.0.0 | (c) 2026 Ann | MIT License | http://example.org/demo */\nX\nY\nP" } },
            { dir := "dist/js/",
              file :=
                { relative := "main.polyfills.min.js",
                  contents := "/*! demo v1.0.0 | (c) 2026 Ann | MIT License | http://example.org/demo */\nmin:/*! demo v1.0.0 | (c) 2026 Ann | MIT License | http://example.org/demo */\nX\nY\nP" } } ] ] ∧
    (Ev.late .buildScripts
        (.write "dist/js/"
          { relative := "main.js",
            contents := "/*! demo v1.0.0 | (c) 2026 Ann | MIT License | http://example.org/demo */\nX\nY" })
        ∈ traceInOrder demoEnv exports.default ∧
      Ev.late .buildScripts
        (.write "dist/js/"
          { relative := "main.min.js",
            contents := "/*! demo v1.0.0 | (c) 2026 Ann | MIT License | http://example.org/demo */\nmin:/*! demo v1.0.0 | (c) 2026 Ann | MIT License | http://example.org/demo */\nX\nY" })
        ∈ traceInOrder demoEnv exports.default ∧
      Ev.late .buildScripts
        (.write "dist/js/"
          { relative := "main.polyfills.js",
            contents := "/*! demo v1.0.0 | (c) 2026 Ann | MIT License | http://example.org/demo */\nX\nY\nP" })
        ∈ traceInOrder demoEnv exports.default ∧
      Ev.late .buildScripts
        (.write "dist/js/"
          { relative := "main.polyfills.min.js",
            contents := "/*! demo v1.0.0 | (c) 2026 Ann | MIT License | http://example.org/demo */\nmin:/*! demo v1.0.0 | (c) 2026 Ann | MIT License | http://example.org/demo */\nX\nY\nP" })
        ∈ traceInOrder demoEnv exports.default) :=
  have h := dir_bundles demoEnv "src/js/main" "main"
    [{ relative := "x.js", contents := "X" }, { relative := "y.js", contents := "Y" },
      { relative := "y.polyfill.js", contents := "P" }] rfl (by decide) (by decide)
  have hd : ScriptEntry.dir "src/js/main" "main"
      [{ relative := "x.js", contents := "X" }, { relative := "y.js", contents := "Y" },
        { relative := "y.polyfill.js", contents := "P" }] ∈ demoEnv.project.scripts :=
    List.mem_cons_of_mem _ (List.mem_cons_self _ _)
  have hb := h.2.2.2.2.2.1 rfl hd
  ⟨rfl, by decide, by decide, h.2.2.1.trans rfl,
    hb.2.1 exports.default (traceInOrder demoEnv exports.default) .ok hb.2.2.1 hb.2.2.2⟩

/-- Claim C7. `jsTasks` is the eight stages banner, optimise, write, rename
with `.min`, minify, optimise, banner, write, in this order, and run on one
file it performs the two writes this order gives. Every unit of
`buildScripts` goes through it: a top-level file directly; in a directory,
the bundle of the `*.js` files that are no polyfills (when `polyfills` is on)
and the bundle of all `*.js` files, each in a chain of its own. -/
theorem jsTasks_pipeline (env : Env) :
    jsTasks env =
      [ .header (bannerMain env.year env.pkg), .optimizejs, .dest paths.scripts.output,
        .renameSuffix ".min", .uglify, .optimizejs, .header (bannerMain env.year env.pkg),
        .dest paths.scripts.output ] ∧
    (jsTasks env).length = 8 ∧
    (∀ f : File, pipeWrites env.plugins (jsTasks env) [f] =
      [ .write paths.scripts.output
          { relative := f.relative,
            contents := env.plugins.optimizejs (bannerMain env.year env.pkg ++ f.contents) },
        .write paths.scripts.output
          { relative := renameSuffix ".min" f.relative,
            contents := bannerMain env.year env.pkg ++
              env.plugins.optimizejs (env.plugins.uglify
                (env.plugins.optimizejs (bannerMain env.year env.pkg ++ f.contents))) } ]) ∧
    buildScripts env =
      (if env.settings.scripts then
        .read [paths.scripts.input] :: (env.project.scripts.map (scriptEntry env)).flatten
      else [.done none]) ∧
    (∀ f : File, scriptEntry env (.file f) = pipeWrites env.plugins (jsTasks env) [f]) ∧
    (∀ (path relative : String) (children : List File),
      scriptEntry env (.dir path relative children) =
        if env.settings.polyfills then
          [ .fork [path ++ "/*.js", "!" ++ path ++ "/*" ++ ".polyfill.js"]
              (pipeOutputs env.plugins (jsTasks env)
                (concatFiles (relative ++ ".js") (mainScripts env path children))),
            .fork [path ++ "/*.js"]
              (pipeOutputs env.plugins (jsTasks env)
                (concatFiles (relative ++ ".polyfills" ++ ".js") (allScripts env path children))) ]
        else
          [ .fork [path ++ "/*.js"]
              (pipeOutputs env.plugins (jsTasks env)
                (concatFiles (relative ++ "" ++ ".js") (allScripts env path children))) ]) ∧
    (∀ (globs : List String) (fs : List File),
      forkChain globs (pipeOutputs env.plugins (jsTasks env) fs) =
        .read globs :: pipeWrites env.plugins (jsTasks env) fs) := by
  refine ⟨rfl, rfl, jsTasks_writes env, ?_, fun _ => rfl, ?_, fun _ _ => rfl⟩
  · cases hs : env.settings.scripts <;> simp [buildScripts, hs]
  · intro path relative children
    cases hp : env.settings.polyfills
    · simp [scriptEntry, hp, pipeOutputs_concat]
    · simp [scriptEntry, hp, pipeOutputs_concat]
      rfl

/-! ## Banner and minified pairs -/

/-- The name `rename({suffix})` gives is the old name with the suffix put in
at one place. -/
theorem renameSuffix_data (suffix rel : String) :
    ∃ pre post, rel.data = pre ++ post ∧
      (renameSuffix suffix rel).data = pre ++ suffix.data ++ post := by
  refine ⟨rel.data.take (dirLength rel.data) ++
      (rel.data.drop (dirLength rel.data)).take (stemLength (rel.data.drop (dirLength rel.data))),
    (rel.data.drop (dirLength rel.data)).drop (stemLength (rel.data.drop (dirLength rel.data))),
    ?_, ?_⟩
  · rw [List.append_assoc, List.take_append_drop, List.take_append_drop]
  · simp [renameSuffix]

/-- What the chain of `buildStyles` writes: for every file the Sass and
postcss stages give, the stamped file, and under the `.min` name what the
minifier makes of the stamped file. -/
theorem stylesSteps_writes (env : Env) (fs : List File) :
    pipeWrites env.plugins (stylesSteps env) fs =
      (env.plugins.sass fs).map (fun f => Effect.write paths.styles.output
        { relative := f.relative,
          contents := bannerMain env.year env.pkg ++ env.plugins.postcssDev f.contents }) ++
      (env.plugins.sass fs).map (fun f => Effect.write paths.styles.output
        { relative := renameSuffix ".min" f.relative,
          contents := env.plugins.cssnano
            (bannerMain env.year env.pkg ++ env.plugins.postcssDev f.contents) }) := by
  simp [pipeWrites, pipeOutputs, runSteps, Step.run, stylesSteps, File.mapContents,
    Function.comp_def]

/-- Claim C6, against it: in the chain of `buildStyles` no banner stage
follows the minifying stage, and on the demo project, whose style minifier
removes comments, the minified style sheet is written without the banner. -/
theorem styles_min_not_restamped :
    (¬ ∃ pre mid post, stylesSteps demoEnv =
      pre ++ Step.postcssMinify ::
        (mid ++ Step.header (bannerMain demoEnv.year demoEnv.pkg) :: post)) ∧
    buildStyles demoEnv =
      [ .read [paths.styles.input],
        .write "dist/css/"
          { relative := "site.css",
            contents := "/*! demo v1.0.0 | (c) 2026 Ann | MIT License | http://example.org/demo */\na{}" },
        .write "dist/css/" { relative := "site.min.css", contents := "\na{}" } ] := by
  refine ⟨?_, rfl⟩
  rintro ⟨pre, mid, post, h⟩
  simp only [stylesSteps] at h
  rcases pre with _ | ⟨a, _ | ⟨b, _ | ⟨c, _ | ⟨d, _ | ⟨e, _ | ⟨f, _ | ⟨g, pre⟩⟩⟩⟩⟩⟩⟩ <;>
    simp only [List.cons_append, List.nil_append, List.cons.injEq, reduceCtorEq, false_and,
      and_false] at h
  · obtain ⟨-, -, -, -, -, -, h⟩ := h
    rcases mid with _ | ⟨m, _ | ⟨n, mid⟩⟩ <;> simp at h
  · obtain ⟨-, -, -, -, -, -, -, h⟩ := h
    simp at h

/-- Claim C6, amended. Scripts and styles are written in pairs into the
output directory of their class: the file, and a file whose name has `.min`
put in. In `jsTasks` a banner stage precedes the first write and a second
banner stage follows the minifier, so the minified script begins with the
banner and the unminified one is the optimiser's output on the stamped
source. In `buildStyles` the only banner stage precedes the first write: the
unminified style begins with the banner, the minified style is whatever the
minifier makes of the stamped style, and the only stage after the minifier is
the second write. -/
theorem banner_pairs (env : Env) :
    jsTasks env =
      [ .header (bannerMain env.year env.pkg), .optimizejs, .dest paths.scripts.output,
        .renameSuffix ".min", .uglify, .optimizejs, .header (bannerMain env.year env.pkg),
        .dest paths.scripts.output ] ∧
    (∀ f : File, pipeWrites env.plugins (jsTasks env) [f] =
      [ .write paths.scripts.output
          { relative := f.relative,
            contents := env.plugins.optimizejs (bannerMain env.year env.pkg ++ f.contents) },
        .write paths.scripts.output
          { relative := renameSuffix ".min" f.relative,
            contents := bannerMain env.year env.pkg ++
              env.plugins.optimizejs (env.plugins.uglify
                (env.plugins.optimizejs (bannerMain env.year env.pkg ++ f.contents))) } ]) ∧
    stylesSteps env =
      [ .sass, .postcssDev, .header (bannerMain env.year env.pkg), .dest paths.styles.output,
        .renameSuffix ".min", .postcssMinify, .dest paths.styles.output ] ∧
    (∀ fs : List File, pipeWrites env.plugins (stylesSteps env) fs =
      (env.plugins.sass fs).map (fun f => Effect.write paths.styles.output
        { relative := f.relative,
          contents := bannerMain env.year env.pkg ++ env.plugins.postcssDev f.contents }) ++
      (env.plugins.sass fs).map (fun f => Effect.write paths.styles.output
        { relative := renameSuffix ".min" f.relative,
          contents := env.plugins.cssnano
            (bannerMain env.year env.pkg ++ env.plugins.postcssDev f.contents) })) ∧
    (∀ pre post, stylesSteps env = pre ++ Step.postcssMinify :: post →
      post = [.dest paths.styles.output]) ∧
    (∀ rel : String, ∃ pre post, rel.data = pre ++ post ∧
      (renameSuffix ".min" rel).data = pre ++ ".min".data ++ post) := by
  refine ⟨rfl, jsTasks_writes env, rfl, stylesSteps_writes env, ?_, renameSuffix_data ".min"⟩
  intro pre post h
  simp only [stylesSteps] at h
  rcases pre with _ | ⟨a, _ | ⟨b, _ | ⟨c, _ | ⟨d, _ | ⟨e, _ | ⟨f, _ | ⟨g, pre⟩⟩⟩⟩⟩⟩⟩ <;>
    simp only [List.cons_append, List.nil_append, List.cons.injEq, reduceCtorEq, false_and,
      and_false] at h
  · exact h.2.2.2.2.2.2.symm
  · obtain ⟨-, -, -, -, -, -, -, h⟩ := h
    simp at h


/-! ## The reload session -/

theorem countEffects_cons (p : Effect → Bool) (ev : Ev) (tr : List Ev) :
    countEffects p (ev :: tr) =
      (match ev.effect with
        | some e => if p e then 1 else 0
        | none => 0) + countEffects p tr := by
  cases h : ev.effect <;> simp [countEffects, h]

theorem countEffects_append (p : Effect → Bool) (a b : List Ev) :
    countEffects p (a ++ b) = countEffects p a + countEffects p b := by
  induction a with
  | nil => simp [countEffects]
  | cons ev a ih => rw [List.cons_append, countEffects_cons, countEffects_cons, ih, Nat.add_assoc]

theorem Interleave.countEffects (p : Effect → Bool) {l r t : List Ev}
    (h : Interleave l r t) :
    Gulpfile.countEffects p t = Gulpfile.countEffects p l + Gulpfile.countEffects p r := by
  induction h with
  | nil => rfl
  | left a _ ih => rw [countEffects_cons, countEffects_cons, ih, Nat.add_assoc]
  | right a _ ih =>
    rw [countEffects_cons, countEffects_cons, ih]
    omega

theorem countEffects_map_eff (p : Effect → Bool) (t : TaskName) (es : List Effect) :
    countEffects p (es.map (Ev.eff t)) = es.countP p := by
  induction es with
  | nil => rfl
  | cons e es ih =>
    rw [List.map_cons, countEffects_cons, ih, List.countP_cons]
    simp only [Ev.effect]
    omega

/-- A run of one task function performs no more effects of a kind than its
body holds, and exactly as many when it succeeds. -/
theorem Runs.task_count {env : Env} {t : TaskName} {tr : List Ev} {o : Outcome}
    (p : Effect → Bool) (h : Runs env (.task t) tr o) :
    countEffects p tr ≤ (body env t).countP p ∧
      (o = .ok → countEffects p tr = (body env t).countP p) := by
  rcases h.task_inv with ⟨ho, htr⟩ | ⟨ho, pre, post, hb, _, _, htr⟩
  · subst htr
    have : countEffects p (Ev.start t :: List.map (Ev.eff t) (body env t) ++
        [Ev.finish t .ok]) = (body env t).countP p := by
      rw [List.cons_append, countEffects_cons, countEffects_append, countEffects_map_eff,
        countEffects_cons]
      simp [Ev.effect, countEffects]
    exact ⟨this.le, fun _ => this⟩
  · subst htr
    refine ⟨?_, fun h' => by rw [ho] at h'; cases h'⟩
    rw [List.cons_append, hb, countEffects_cons, countEffects_append, countEffects_map_eff,
      countEffects_cons]
    simp [Ev.effect, countEffects]

/-- A run of a composite performs no more effects of a kind than the bodies of
its task functions hold together. -/
theorem Runs.count_le {env : Env} {c : Comp} {tr : List Ev} {o : Outcome}
    (p : Effect → Bool) (n : TaskName → Nat) (hn : ∀ t, (body env t).countP p ≤ n t)
    (h : Runs env c tr o) : countEffects p tr ≤ (c.tasks.map n).sum := by
  induction h with
  | taskOk t =>
    have := (Runs.task_count p (@Runs.taskOk env t)).1
    simpa [Comp.tasks] using this.trans (hn t)
  | taskErr t pre post hb hw he =>
    have := (Runs.task_count p (@Runs.taskErr env t pre post hb hw he)).1
    simpa [Comp.tasks] using this.trans (hn t)
  | seriesNil => simp [countEffects]
  | seriesOk _ _ ih1 ih2 =>
    rw [Comp.tasks_series_cons, countEffects_append, List.map_append, List.sum_append]
    omega
  | seriesErr _ ih =>
    rw [Comp.tasks_series_cons, List.map_append, List.sum_append]
    omega
  | parallelNil => simp [countEffects]
  | parallelCons _ _ hi ih1 ih2 =>
    rw [Comp.tasks_parallel_cons, hi.countEffects, List.map_append, List.sum_append]
    omega

/-- Forked chains only read and write, so they do not change how often any
other effect occurs in a trace. -/
theorem Trace.count_ordered {env : Env} {c : Comp} {tr : List Ev} {o : Outcome}
    (p : Effect → Bool) (hread : ∀ globs, p (.read globs) = false)
    (hwrite : ∀ dir f, p (.write dir f) = false) (h : Trace env c tr o) :
    countEffects p tr = countEffects p (ordered tr) := by
  apply h.scatter_ordered.countEffects_eq p
  · simp
  · intro x _ q hq e he
    cases x with
    | eff t e' =>
      cases e' with
      | fork globs outputs =>
        simp only [Ev.forks, List.mem_singleton] at hq
        subst hq
        simp only [forkChain, List.mem_cons, List.mem_map] at he
        rcases he with rfl | ⟨o', _, rfl⟩
        · exact hread _
        · exact hwrite _ _
      | _ => simp [Ev.forks] at hq
    | _ => simp [Ev.forks] at hq

/-- Only `startServer` calls `browserSync.init`, and at most once. -/
theorem body_init_count (env : Env) (t : TaskName) :
    (body env t).countP Effect.isInit ≤ if t = .startServer then 1 else 0 := by
  by_cases ht : t = .startServer
  · subst ht
    cases hr : env.settings.reload <;> simp [body, startServer, hr, Effect.isInit]
  · rw [if_neg ht, Nat.le_zero, List.countP_eq_zero]
    intro e he
    rcases body_sound env t e he with rfl | ⟨_, _, rfl⟩ | ⟨_, rfl⟩ | ⟨_, rfl, _⟩ | ⟨_, rfl⟩ |
      ⟨h, _, _⟩ | ⟨_, _, rfl⟩ | ⟨_, _, _, rfl⟩ | ⟨_, _, _, rfl, _⟩
    all_goals first | exact absurd h ht | simp [Effect.isInit]

/-- Only `reloadBrowser` calls `browserSync.reload`: once when the toggle
`reload` is on, never when it is off. -/
theorem body_reload_count (env : Env) (t : TaskName) :
    (body env t).countP Effect.isReload =
      if t = .reloadBrowser ∧ env.settings.reload = true then 1 else 0 := by
  by_cases ht : t = .reloadBrowser
  · subst ht
    cases hr : env.settings.reload <;> simp [body, reloadBrowser, hr, Effect.isReload]
  · rw [if_neg (fun h => ht h.1), List.countP_eq_zero]
    intro e he
    rcases body_sound env t e he with rfl | ⟨_, _, rfl⟩ | ⟨_, rfl⟩ | ⟨_, rfl, _⟩ | ⟨_, rfl⟩ |
      ⟨_, _, rfl⟩ | ⟨h, _, _⟩ | ⟨_, _, _, rfl⟩ | ⟨_, _, _, rfl, _⟩
    all_goals first | exact absurd h ht | simp [Effect.isReload]

/-- Claim C9, against it: with the reload feature on, a trace that consists of
`reloadBrowser` alone, in which `startServer` never ran and `browserSync.init`
was never called, calls `browserSync.reload`. -/
theorem reload_without_session :
    demoEnv.settings.reload = true ∧
    Trace demoEnv (.task .reloadBrowser)
      [Ev.start .reloadBrowser, Ev.eff .reloadBrowser .bsReload,
        Ev.eff .reloadBrowser (.done none), Ev.finish .reloadBrowser .ok] .ok ∧
    countEffects Effect.isInit
      [Ev.start .reloadBrowser, Ev.eff .reloadBrowser .bsReload,
        Ev.eff .reloadBrowser (.done none), Ev.finish .reloadBrowser .ok] = 0 ∧
    countEffects Effect.isReload
      [Ev.start .reloadBrowser, Ev.eff .reloadBrowser .bsReload,
        Ev.eff .reloadBrowser (.done none), Ev.finish .reloadBrowser .ok] = 1 :=
  ⟨rfl, Trace.settled demoEnv (.task .reloadBrowser), rfl, rfl⟩

/-- Claim C9, amended. `reloadBrowser` tests the toggle `reload` and nothing
else: it calls `browserSync.reload` exactly when the toggle is on, whether or
not `startServer` has run, and with the toggle off it only signals
completion. Every successful trace of it calls `done` once and never
`browserSync.init`. `browserSync.init` is called at most once in every trace
of every exported composite, and never in a trace of a watch handler. No
exported composite contains `reloadBrowser`: it runs in watch handlers only. -/
theorem reload_tests_toggle_only (env : Env) :
    body env .reloadBrowser =
      (if env.settings.reload then [.bsReload, .done none] else [.done none]) ∧
    (∀ tr, Trace env (.task .reloadBrowser) tr .ok →
      countEffects Effect.isReload tr = (if env.settings.reload then 1 else 0) ∧
      countEffects Effect.isDone tr = 1 ∧
      countEffects Effect.isInit tr = 0) ∧
    (∀ c ∈ exports.all, ∀ tr o, Trace env c tr o → countEffects Effect.isInit tr ≤ 1) ∧
    (∀ b ∈ watchBindings, ∀ tr o, Trace env b.handler tr o →
      countEffects Effect.isInit tr = 0) ∧
    (∀ c ∈ exports.all, TaskName.reloadBrowser ∉ c.tasks) := by
  have hbody : body env .reloadBrowser =
      (if env.settings.reload then [.bsReload, .done none] else [.done none]) := by
    cases hr : env.settings.reload <;> simp [body, reloadBrowser, hr]
  refine ⟨hbody, ?_, ?_, ?_, by decide⟩
  · intro tr ht
    have h := ht.runs_ordered
    have h1 := (Runs.task_count Effect.isReload h).2 rfl
    have h2 := (Runs.task_count Effect.isDone h).2 rfl
    have h3 := (Runs.task_count Effect.isInit h).2 rfl
    rw [← ht.count_ordered _ (fun _ => rfl) (fun _ _ => rfl), hbody] at h1 h2 h3
    cases hr : env.settings.reload <;>
      simp [hr, Effect.isReload, Effect.isDone, Effect.isInit] at h1 h2 h3 ⊢ <;>
      exact ⟨h1, h2, h3⟩
  · intro c hc tr o ht
    rw [ht.count_ordered _ (fun _ => rfl) (fun _ _ => rfl)]
    have hle := Runs.count_le Effect.isInit _ (body_init_count env) ht.runs_ordered
    refine hle.trans ?_
    simp only [exports.all, List.mem_cons, List.mem_singleton, List.not_mem_nil, or_false] at hc
    rcases hc with rfl | rfl | rfl | rfl | rfl | rfl | rfl <;> decide
  · intro b hb tr o ht
    rw [ht.count_ordered _ (fun _ => rfl) (fun _ _ => rfl)]
    have hle := Runs.count_le Effect.isInit _ (body_init_count env) ht.runs_ordered
    refine Nat.le_zero.1 (hle.trans ?_)
    simp only [watchBindings, List.mem_cons, List.mem_singleton, List.not_mem_nil,
      or_false] at hb
    rcases hb with rfl | rfl | rfl | rfl | rfl <;> decide

/-! ## Output directories -/

/-- Claim C10, against it: scripts and libs are distinct asset classes with
the same output directory. -/
theorem scripts_libs_share_output :
    AssetClass.scripts ≠ AssetClass.libs ∧
    AssetClass.scripts.output = AssetClass.libs.output ∧
    AssetClass.scripts.output = "dist/js/" := by
  decide

/-- Claim C10, amended. Two distinct asset classes have the same output
directory exactly when they are scripts and libs (`dist/js/`) or images and
svgs (`dist/img/`); the output directory of copy (`dist/`) contains all the
others. Every write of a task function, and every output of a chain it
forks, goes to the output directory of its class, so in the parallel group
of the default build `buildScripts` and `copyJSLibs` write into the same
directory, as do `buildSVGs`, `svgSprite` and `images`. -/
theorem output_dirs_shared (env : Env) :
    (∀ a b : AssetClass, (a ≠ b ∧ a.output = b.output) ↔
      (a, b) ∈ [(AssetClass.scripts, AssetClass.libs), (.libs, .scripts),
        (.images, .svgs), (.svgs, .images)]) ∧
    (∀ a : AssetClass, isUnder [AssetClass.copy.output] a.output = true) ∧
    (∀ t dir f, Effect.write dir f ∈ body env t → dir = outputDir t) ∧
    (∀ t globs outputs, Effect.fork globs outputs ∈ body env t →
      ∀ o ∈ outputs, o.dir = outputDir t) ∧
    outputDir .buildScripts = AssetClass.scripts.output ∧
    outputDir .copyJSLibs = AssetClass.libs.output ∧
    outputDir .buildStyles = AssetClass.styles.output ∧
    outputDir .buildSVGs = AssetClass.svgs.output ∧
    outputDir .svgSprite = AssetClass.svgs.output ∧
    outputDir .images = AssetClass.images.output ∧
    outputDir .copyFiles = AssetClass.copy.output := by
  refine ⟨?_, ?_, ?_, ?_, rfl, rfl, rfl, rfl, rfl, rfl, rfl⟩
  · intro a b
    cases a <;> cases b <;> decide
  · intro a
    cases a <;> decide
  · intro t dir f he
    rcases body_sound env t _ he with h | ⟨_, _, h⟩ | ⟨_, h⟩ | ⟨_, h, _⟩ | ⟨_, h⟩ |
      ⟨_, _, h⟩ | ⟨_, _, h⟩ | ⟨_, _, _, h⟩ | ⟨_, _, _, h, _⟩
    all_goals first | (cases h; done) | (simp only [Effect.write.injEq] at h; exact h.1)
  · intro t globs outputs he
    rcases body_sound env t _ he with h | ⟨_, _, h⟩ | ⟨_, h⟩ | ⟨_, h, _⟩ | ⟨_, h⟩ |
      ⟨_, _, h⟩ | ⟨_, _, h⟩ | ⟨_, _, _, h⟩ | ⟨_, _, _, h, hd⟩
    all_goals first | (cases h; done) | skip
    simp only [Effect.fork.injEq] at h
    obtain ⟨-, rfl⟩ := h
    exact hd


/-! ## Watch handlers -/

/-- The watchers `watchSource` arms and what one run of a handler does. The
body of `watchSource` is five calls of `watch` followed by `done`. Every
handler is a composite followed by `reloadBrowser`; in every trace of a
handler the gulp-ordered events before a call of `browserSync.reload` begin
with a complete successful run of that composite; a successful trace calls
`browserSync.reload` once when the toggle `reload` is on; no trace calls it
when the toggle is off. How file events are turned into runs of a handler is
decided inside gulp's `watch` and is not part of the gulpfile. -/
theorem watch_handlers (env : Env) :
    watchSource env =
      [ .watchArm [paths.scripts.watchPath] (.series [exports.scripts, .task .reloadBrowser]),
        .watchArm [paths.libs.input] (.series [exports.copyJSLibs, .task .reloadBrowser]),
        .watchArm [paths.styles.input] (.series [exports.styles, .task .reloadBrowser]),
        .watchArm [paths.svgs.input, paths.images.input]
          (.series [exports.assets, .task .reloadBrowser]),
        .watchArm [paths.copy.input] (.series [exports.copyFiles, .task .reloadBrowser]),
        .done none ] ∧
    ∀ b ∈ watchBindings, ∃ c, b.handler = .series [c, .task .reloadBrowser] ∧
      ∀ tr o, Trace env b.handler tr o →
        (∀ pre post, tr = pre ++ Ev.eff .reloadBrowser .bsReload :: post →
          ∃ t1 mid, ordered pre = t1 ++ mid ∧ Runs env c t1 .ok) ∧
        (o = .ok → countEffects Effect.isReload tr = if env.settings.reload then 1 else 0) ∧
        (env.settings.reload = false → countEffects Effect.isReload tr = 0) := by
  refine ⟨rfl, ?_⟩
  have main : ∀ c : Comp, TaskName.reloadBrowser ∉ c.tasks →
      ∀ tr o, Trace env (.series [c, .task .reloadBrowser]) tr o →
        (∀ pre post, tr = pre ++ Ev.eff .reloadBrowser .bsReload :: post →
          ∃ t1 mid, ordered pre = t1 ++ mid ∧ Runs env c t1 .ok) ∧
        (o = .ok → countEffects Effect.isReload tr = if env.settings.reload then 1 else 0) ∧
        (env.settings.reload = false → countEffects Effect.isReload tr = 0) := by
    intro c hc tr o ht
    have h := ht.runs_ordered
    have hcount := ht.count_ordered Effect.isReload (fun _ => rfl) (fun _ _ => rfl)
    have hzero : ∀ {t1 : List Ev} {o1 : Outcome}, Runs env c t1 o1 →
        countEffects Effect.isReload t1 = 0 := by
      intro t1 o1 h1
      have hle := Runs.count_le Effect.isReload
        (fun t => if t = .reloadBrowser ∧ env.settings.reload = true then 1 else 0)
        (fun t => (body_reload_count env t).le) h1
      refine Nat.le_zero.1 (hle.trans (Nat.le_zero.2 ?_))
      rw [List.sum_eq_zero]
      intro x hx
      obtain ⟨t, ht, rfl⟩ := List.mem_map.1 hx
      rw [if_neg]
      rintro ⟨rfl, _⟩
      exact hc ht
    refine ⟨?_, ?_, ?_⟩
    · intro pre post htr
      obtain ⟨t1, mid, hpre, h1, _⟩ :=
        Runs.series_before h (ordered_split htr rfl) (by simpa [Ev.task] using hc)
      exact ⟨t1, mid, hpre, h1⟩
    · intro ho
      subst ho
      rw [hcount]
      rcases h.series_cons_inv with ⟨t1, t2, h12, h1, h2⟩ | ⟨_, ho⟩
      · rcases h2.series_cons_inv with ⟨t3, t4, h34, h3, h4⟩ | ⟨_, ho⟩
        · cases h4
          rw [h12, h34, countEffects_append, hzero h1, List.append_nil,
            (Runs.task_count Effect.isReload h3).2 rfl, body_reload_count]
          simp
        · cases ho
      · cases ho
    · intro hr
      rw [hcount]
      have hle := Runs.count_le Effect.isReload
        (fun t => if t = .reloadBrowser ∧ env.settings.reload = true then 1 else 0)
        (fun t => (body_reload_count env t).le) h
      refine Nat.le_zero.1 (hle.trans (Nat.le_zero.2 ?_))
      rw [List.sum_eq_zero]
      intro x hx
      obtain ⟨t, _, rfl⟩ := List.mem_map.1 hx
      simp [hr]
  intro b hb
  simp only [watchBindings, List.mem_cons, List.mem_singleton, List.not_mem_nil,
    or_false] at hb
  rcases hb with rfl | rfl | rfl | rfl | rfl
  · exact ⟨exports.scripts, rfl, main _ (by decide)⟩
  · exact ⟨exports.copyJSLibs, rfl, main _ (by decide)⟩
  · exact ⟨exports.styles, rfl, main _ (by decide)⟩
  · exact ⟨exports.assets, rfl, main _ (by decide)⟩
  · exact ⟨exports.copyFiles, rfl, main _ (by decide)⟩

end Gulpfile
